import Mathlib

/-!
# ZigParse: a grammar-driven streaming parser engine

Verification development for the `zig-stream-parse` repository.  The
repository ships the C interface `src/zigparse.h` (error codes, event
types, and the `zp_*` API surface); the engine behind that interface is
described by the repository specification.  The definitions below embed
the interface constants from the header verbatim and model the engine
components (token matchers, lexer, incremental buffer, state machine,
event dispatcher, error tracker) from the specification, then prove the
specification's testable properties about the model.
-/

namespace ZigParse

/-! ## Interface constants from `src/zigparse.h` -/

/-- `ZP_OK = 0` from the `ZP_ErrorCode` enum in `zigparse.h`. -/
def ZP_OK : Nat := 0

/-- `ZP_ERROR_UNKNOWN = 1` from `zigparse.h`. -/
def ZP_ERROR_UNKNOWN : Nat := 1

/-- `ZP_ERROR_OUT_OF_MEMORY = 2` from `zigparse.h`. -/
def ZP_ERROR_OUT_OF_MEMORY : Nat := 2

/-- `ZP_ERROR_EOF = 11` from `zigparse.h`. -/
def ZP_ERROR_EOF : Nat := 11

/-- `ZP_ERROR_INVALID_HANDLE = 20` from `zigparse.h`. -/
def ZP_ERROR_INVALID_HANDLE : Nat := 20

/-- `ZP_ERROR_INVALID_ARGUMENT = 21` from `zigparse.h`. -/
def ZP_ERROR_INVALID_ARGUMENT : Nat := 21

/-- `ZP_ERROR_INVALID_STATE = 22` from `zigparse.h`. -/
def ZP_ERROR_INVALID_STATE : Nat := 22

/-- `ZP_ERROR_UNEXPECTED_TOKEN = 23` from `zigparse.h`. -/
def ZP_ERROR_UNEXPECTED_TOKEN : Nat := 23

/-- `ZP_ERROR_PARSER_CONFIG = 24` from `zigparse.h`. -/
def ZP_ERROR_PARSER_CONFIG : Nat := 24

/-- `ZP_EVENT_START_DOCUMENT = 0` from the `ZP_EventType` enum in `zigparse.h`. -/
def ZP_EVENT_START_DOCUMENT : Nat := 0

/-- `ZP_EVENT_END_DOCUMENT = 1` from `zigparse.h`. -/
def ZP_EVENT_END_DOCUMENT : Nat := 1

/-- `ZP_EVENT_START_ELEMENT = 2` from `zigparse.h`. -/
def ZP_EVENT_START_ELEMENT : Nat := 2

/-- `ZP_EVENT_END_ELEMENT = 3` from `zigparse.h`. -/
def ZP_EVENT_END_ELEMENT : Nat := 3

/-- `ZP_EVENT_VALUE = 4` from `zigparse.h`. -/
def ZP_EVENT_VALUE : Nat := 4

/-- `ZP_EVENT_ERROR = 5` from `zigparse.h`. -/
def ZP_EVENT_ERROR : Nat := 5

/-! ## Token matchers

Modelled from the spec, section 3: a `TokenMatcher` is
`{ id, kind : Literal(bytes) | CharClass(predicate-set) | Pattern, priority }`.
The spec's design notes leave the non-literal pattern language open
("a configuration parameter of the TokenMatcher Set"); the model
realises the `Literal` and `CharClass` kinds, with a character class
given by its (finite, decidable) set of member bytes. -/

/-- Modelled from the spec: the kind of a `TokenMatcher` — a literal
byte sequence or a character class (maximal run of bytes from a set).
The engine implementation is absent from the repository. -/
inductive MatcherKind where
  | literal (bytes : List Nat)
  | charClass (cls : List Nat)
deriving DecidableEq, Repr

/-- Modelled from the spec: a token matcher
`{ id : TokenTypeId, kind, priority : integer }`. -/
structure TokenMatcher where
  id : Nat
  kind : MatcherKind
  priority : Int
deriving DecidableEq, Repr

/-- Boolean list-prefix test used by literal matchers. -/
def isPref : List Nat → List Nat → Bool
  | [], _ => true
  | _ :: _, [] => false
  | a :: as, b :: bs => a == b && isPref as bs

/-- Length of the leading run of bytes belonging to the class. -/
def runLen (cls : List Nat) : List Nat → Nat
  | [] => 0
  | b :: bs => if b ∈ cls then runLen cls bs + 1 else 0

/-- Modelled from the spec: the result of one matcher at the cursor —
`Matched` with a definite length, `NeedMoreInput` (the match could
still be affected by bytes beyond the buffer end), or `NoMatch`. -/
inductive MRes where
  | noMatch
  | needMore
  | definite (len : Nat)
deriving DecidableEq, Repr

/-- Whether an `MRes` is `needMore`. -/
def MRes.isNeedMore : MRes → Bool
  | .needMore => true
  | _ => false

/-- Whether an `MRes` is a definite match. -/
def MRes.isDefinite : MRes → Bool
  | .definite _ => true
  | _ => false

/-- Modelled from the spec: evaluate one matcher kind against the bytes
available at the cursor.  A literal reaches a definite match exactly
when the whole literal is present; when the buffer holds a proper
prefix of the literal the matcher could still complete, so it reports
`needMore`.  A character class matches the maximal leading run of
class bytes; while the run extends to the buffer end it could still
grow, so it reports `needMore`.  An empty literal never matches. -/
def matchOne : MatcherKind → List Nat → MRes
  | .literal lit, buf =>
    if lit.isEmpty then .noMatch
    else if isPref lit buf then .definite lit.length
    else if isPref buf lit then .needMore
    else .noMatch
  | .charClass cls, buf =>
    let n := runLen cls buf
    if n == buf.length then .needMore
    else if n == 0 then .noMatch
    else .definite n

lemma isPref_length {l₁ l₂ : List Nat} (h : isPref l₁ l₂ = true) :
    l₁.length ≤ l₂.length := by
  induction l₁ generalizing l₂ with
  | nil => simp
  | cons a as ih =>
    cases l₂ with
    | nil => simp [isPref] at h
    | cons b bs =>
      simp only [isPref, Bool.and_eq_true] at h
      simpa using Nat.succ_le_succ (ih h.2)

lemma isPref_append {l₁ l₂ ext : List Nat} (h : isPref l₁ l₂ = true) :
    isPref l₁ (l₂ ++ ext) = true := by
  induction l₁ generalizing l₂ with
  | nil => simp [isPref]
  | cons a as ih =>
    cases l₂ with
    | nil => simp [isPref] at h
    | cons b bs =>
      simp only [isPref, Bool.and_eq_true] at h ⊢
      exact ⟨h.1, ih h.2⟩

lemma isPref_neither_append {l₁ l₂ ext : List Nat}
    (h₁ : isPref l₁ l₂ = false) (h₂ : isPref l₂ l₁ = false) :
    isPref l₁ (l₂ ++ ext) = false ∧ isPref (l₂ ++ ext) l₁ = false := by
  induction l₁ generalizing l₂ with
  | nil => simp [isPref] at h₁
  | cons a as ih =>
    cases l₂ with
    | nil => simp [isPref] at h₂
    | cons b bs =>
      simp only [isPref, Bool.and_eq_false_iff] at h₁ h₂
      by_cases hab : a = b
      · subst hab
        rcases h₁ with h₁ | h₁
        · simp at h₁
        rcases h₂ with h₂ | h₂
        · simp at h₂
        have := ih h₁ h₂
        simp only [List.cons_append, isPref, Bool.and_eq_false_iff]
        exact ⟨Or.inr this.1, Or.inr this.2⟩
      · simp only [List.cons_append, isPref, Bool.and_eq_false_iff]
        constructor
        · exact Or.inl (by simpa using hab)
        · exact Or.inl (by simpa using fun h => hab h.symm)

lemma runLen_le (cls : List Nat) (l : List Nat) : runLen cls l ≤ l.length := by
  induction l with
  | nil => simp [runLen]
  | cons b bs ih =>
    simp only [runLen]
    split
    · simpa using Nat.succ_le_succ ih
    · simp

lemma runLen_append_of_lt {cls l : List Nat} (ext : List Nat)
    (h : runLen cls l < l.length) : runLen cls (l ++ ext) = runLen cls l := by
  induction l with
  | nil => simp at h
  | cons b bs ih =>
    simp only [runLen, List.cons_append] at h ⊢
    split
    · rename_i hmem
      simp only [hmem, if_true] at h
      have : runLen cls bs < bs.length := by
        simpa using Nat.lt_of_succ_lt_succ h
      simp [ih this]
    · rfl

lemma matchOne_definite_pos {k : MatcherKind} {buf : List Nat} {n : Nat}
    (h : matchOne k buf = .definite n) : 0 < n := by
  cases k with
  | literal lit =>
    simp only [matchOne] at h
    split at h
    · simp at h
    split at h
    · rename_i hne _
      cases h
      cases lit with
      | nil => simp [List.isEmpty] at hne
      | cons a as => simp
    split at h
    · simp at h
    · simp at h
  | charClass cls =>
    simp only [matchOne] at h
    split at h
    · simp at h
    split at h
    · simp at h
    · rename_i hzero
      cases h
      simpa using Nat.pos_of_ne_zero (by simpa using hzero)

lemma matchOne_definite_le {k : MatcherKind} {buf : List Nat} {n : Nat}
    (h : matchOne k buf = .definite n) : n ≤ buf.length := by
  cases k with
  | literal lit =>
    simp only [matchOne] at h
    split at h
    · simp at h
    split at h
    · rename_i hpre
      cases h
      exact isPref_length hpre
    split at h
    · simp at h
    · simp at h
  | charClass cls =>
    simp only [matchOne] at h
    split at h
    · simp at h
    split at h
    · simp at h
    · cases h
      exact runLen_le cls buf

lemma matchOne_definite_append {k : MatcherKind} {buf : List Nat} {n : Nat}
    (ext : List Nat) (h : matchOne k buf = .definite n) :
    matchOne k (buf ++ ext) = .definite n := by
  cases k with
  | literal lit =>
    simp only [matchOne] at h ⊢
    split at h
    · simp at h
    rename_i hne
    rw [if_neg hne]
    split at h
    · rename_i hpre
      cases h
      rw [if_pos (isPref_append hpre)]
    split at h
    · simp at h
    · simp at h
  | charClass cls =>
    simp only [matchOne] at h ⊢
    split at h
    · simp at h
    split at h
    · simp at h
    · rename_i hfull hzero
      cases h
      have hlt : runLen cls buf < buf.length :=
        Nat.lt_of_le_of_ne (runLen_le cls buf) (by simpa using hfull)
      rw [runLen_append_of_lt ext hlt]
      have h1 : ¬ (runLen cls buf == (buf ++ ext).length) = true := by
        simp only [List.length_append, beq_iff_eq]
        omega
      rw [if_neg h1, if_neg hzero]

lemma matchOne_noMatch_append {k : MatcherKind} {buf : List Nat}
    (ext : List Nat) (h : matchOne k buf = .noMatch) :
    matchOne k (buf ++ ext) = .noMatch := by
  cases k with
  | literal lit =>
    simp only [matchOne] at h ⊢
    split at h
    · rename_i he
      rw [if_pos he]
    rename_i hne
    rw [if_neg hne]
    split at h
    · simp at h
    rename_i hp1
    split at h
    · simp at h
    rename_i hp2
    have hb := @isPref_neither_append lit buf ext
      (by simpa using hp1) (by simpa using hp2)
    rw [if_neg (by simp [hb.1]), if_neg (by simp [hb.2])]
  | charClass cls =>
    simp only [matchOne] at h ⊢
    split at h
    · simp at h
    rename_i hfull
    split at h
    · rename_i hzero
      have hz : runLen cls buf = 0 := by simpa using hzero
      have hlt : runLen cls buf < buf.length :=
        Nat.lt_of_le_of_ne (runLen_le cls buf) (by simpa using hfull)
      rw [runLen_append_of_lt ext hlt]
      have h1 : ¬ (runLen cls buf == (buf ++ ext).length) = true := by
        simp only [List.length_append, beq_iff_eq]
        omega
      rw [if_neg h1, if_pos hzero]
    · simp at h

lemma matchOne_needMore_of_append {k : MatcherKind} {buf : List Nat}
    {ext : List Nat} (h : matchOne k (buf ++ ext) = .needMore) :
    matchOne k buf = .needMore := by
  rcases hm : matchOne k buf with _ | _ | n
  · rw [matchOne_noMatch_append ext hm] at h
    exact absurd h (by simp)
  · rfl
  · rw [matchOne_definite_append ext hm] at h
    exact absurd h (by simp)

/-! ## Lexer: candidate selection

Modelled from the spec, section 4.1: "evaluate all matchers whose
pattern is consistent with the bytes available starting at the cursor;
among those that reach a definite match, select by priority then
declaration order; if the only candidates are still possibly extends
beyond buffer end, return NeedMoreInput rather than guessing — this is
what makes incremental parsing safe across arbitrary chunk
boundaries."  To make incremental parsing safe (the defining property
of section 8), the model returns `needMore` exactly when a matcher
that is still `needMore` could, once complete, win the selection over
the best definite match — i.e. when a pending matcher has higher
priority than the best definite candidate, or equal priority and an
earlier declaration index. -/

/-- Modelled from the spec: a selected lexer candidate — declaration
index, priority, token type id, and matched length. -/
structure Cand where
  idx : Nat
  prio : Int
  tid : Nat
  len : Nat
deriving DecidableEq, Repr

/-- Modelled from the spec: candidate `a` wins the selection against
candidate `b` when it has strictly higher priority, or equal priority
and an earlier declaration index. -/
def beats (a b : Cand) : Bool :=
  b.prio < a.prio || (a.prio == b.prio && a.idx < b.idx)

lemma beats_iff {a b : Cand} :
    beats a b = true ↔ (b.prio < a.prio ∨ (a.prio = b.prio ∧ a.idx < b.idx)) := by
  simp [beats]

lemma beats_irrefl (a : Cand) : beats a a = false := by
  simp [beats]

lemma beats_asymm {a b : Cand} (h : beats a b = true) : beats b a = false := by
  rw [beats_iff] at h
  rcases h with h | ⟨h1, h2⟩
  · simp only [beats, Bool.or_eq_false_iff, Bool.and_eq_false_iff]
    constructor
    · simpa using Int.not_lt.mpr (Int.le_of_lt h)
    · exact Or.inl (by simp; omega)
  · simp only [beats, Bool.or_eq_false_iff, Bool.and_eq_false_iff]
    constructor
    · simp [h1]
    · exact Or.inr (by simp; omega)

lemma beats_trans {a b c : Cand} (h₁ : beats a b = true)
    (h₂ : beats b c = true) : beats a c = true := by
  rw [beats_iff] at h₁ h₂ ⊢
  rcases h₁ with h₁ | ⟨h₁, h₁'⟩ <;> rcases h₂ with h₂ | ⟨h₂, h₂'⟩
  · exact Or.inl (lt_trans h₂ h₁)
  · exact Or.inl (by omega)
  · exact Or.inl (by omega)
  · exact Or.inr ⟨by omega, by omega⟩

lemma beats_total_of_idx_ne {a b : Cand} (hne : a.idx ≠ b.idx)
    (h : beats a b = false) : beats b a = true := by
  simp only [beats, Bool.or_eq_false_iff, Bool.and_eq_false_iff,
    decide_eq_false_iff_not, beq_eq_false_iff_ne, ne_eq] at h
  rw [beats_iff]
  rcases h with ⟨h1, h2 | h2⟩
  · exact Or.inl (by omega)
  · rcases lt_or_eq_of_le (Int.not_lt.mp h1) with h | h
    · exact Or.inl h
    · exact Or.inr ⟨h.symm, by omega⟩

/-- Modelled from the spec: fold over the matcher list (with running
declaration index) keeping the best definite candidate under the
priority-then-declaration-order selection rule. -/
def bestFrom (buf : List Nat) : Nat → List TokenMatcher → Option Cand
  | _, [] => none
  | i, m :: rest =>
    let r := bestFrom buf (i + 1) rest
    match matchOne m.kind buf with
    | .definite len =>
      let c : Cand := ⟨i, m.priority, m.id, len⟩
      match r with
      | none => some c
      | some b => if beats b c then some b else some c
    | _ => r

/-- Modelled from the spec: some matcher, still pending
(`NeedMoreInput`), would win the selection against candidate `d`. -/
def pendBeats (buf : List Nat) (d : Cand) : Nat → List TokenMatcher → Bool
  | _, [] => false
  | i, m :: rest =>
    ((matchOne m.kind buf).isNeedMore && beats ⟨i, m.priority, m.id, 0⟩ d)
      || pendBeats buf d (i + 1) rest

/-- Some definite match in the list would win the selection against
candidate `d`. -/
def defBeats (buf : List Nat) (d : Cand) : Nat → List TokenMatcher → Bool
  | _, [] => false
  | i, m :: rest =>
    (match matchOne m.kind buf with
     | .definite len => beats ⟨i, m.priority, m.id, len⟩ d
     | _ => false)
      || defBeats buf d (i + 1) rest

/-- Candidate `c` is realised by a definite match of some matcher in
the list (declaration indices counted from `i`). -/
def hasDef (buf : List Nat) (c : Cand) : Nat → List TokenMatcher → Bool
  | _, [] => false
  | i, m :: rest =>
    (matchOne m.kind buf == .definite c.len && m.priority == c.prio
      && m.id == c.tid && i == c.idx)
      || hasDef buf c (i + 1) rest

/-- Some matcher in the list is still pending at this buffer. -/
def anyPendB (buf : List Nat) (ms : List TokenMatcher) : Bool :=
  ms.any fun m => (matchOne m.kind buf).isNeedMore

/-- Some matcher in the list reaches a definite match at this buffer. -/
def anyDefB (buf : List Nat) (ms : List TokenMatcher) : Bool :=
  ms.any fun m => (matchOne m.kind buf).isDefinite

/-- Modelled from the spec: the result of one lexer step —
a selected token candidate, `NeedMoreInput`, or `NoMatch`. -/
inductive LexRes where
  | noTok
  | needMore
  | tok (c : Cand)
deriving DecidableEq, Repr

/-- Modelled from the spec, section 4.1: one lexer step.  All matchers
are evaluated at the cursor; among the definite matches the best by
priority then declaration order is selected, unless a still-pending
matcher could win the selection once completed, in which case the
lexer reports `NeedMoreInput`; with no definite match it reports
`NeedMoreInput` when some matcher is pending and `NoMatch` (a lexical
error) otherwise. -/
def lexer (ms : List TokenMatcher) (buf : List Nat) : LexRes :=
  match bestFrom buf 0 ms with
  | none => if anyPendB buf ms then .needMore else .noTok
  | some d => if pendBeats buf d 0 ms then .needMore else .tok d

lemma beats_len_irrel {i : Nat} {p : Int} {t l l' : Nat} {d : Cand} :
    beats ⟨i, p, t, l⟩ d = beats ⟨i, p, t, l'⟩ d := by
  simp [beats]

lemma bestFrom_pos {buf : List Nat} :
    ∀ {i : Nat} {ms : List TokenMatcher} {d : Cand},
      bestFrom buf i ms = some d → 0 < d.len := by
  intro i ms
  induction ms generalizing i with
  | nil => intro d h; simp [bestFrom] at h
  | cons m rest ih =>
    intro d h
    rcases hm : matchOne m.kind buf with _ | _ | len
    · simp only [bestFrom, hm] at h; exact ih h
    · simp only [bestFrom, hm] at h; exact ih h
    · rcases hr : bestFrom buf (i + 1) rest with _ | b
      · simp only [bestFrom, hm, hr] at h
        cases h
        exact matchOne_definite_pos hm
      · simp only [bestFrom, hm, hr] at h
        split at h
        · cases h; exact ih hr
        · cases h; exact matchOne_definite_pos hm

lemma bestFrom_le {buf : List Nat} :
    ∀ {i : Nat} {ms : List TokenMatcher} {d : Cand},
      bestFrom buf i ms = some d → d.len ≤ buf.length := by
  intro i ms
  induction ms generalizing i with
  | nil => intro d h; simp [bestFrom] at h
  | cons m rest ih =>
    intro d h
    rcases hm : matchOne m.kind buf with _ | _ | len
    · simp only [bestFrom, hm] at h; exact ih h
    · simp only [bestFrom, hm] at h; exact ih h
    · rcases hr : bestFrom buf (i + 1) rest with _ | b
      · simp only [bestFrom, hm, hr] at h
        cases h
        exact matchOne_definite_le hm
      · simp only [bestFrom, hm, hr] at h
        split at h
        · cases h; exact ih hr
        · cases h; exact matchOne_definite_le hm

lemma bestFrom_idx_ge {buf : List Nat} :
    ∀ {i : Nat} {ms : List TokenMatcher} {d : Cand},
      bestFrom buf i ms = some d → i ≤ d.idx := by
  intro i ms
  induction ms generalizing i with
  | nil => intro d h; simp [bestFrom] at h
  | cons m rest ih =>
    intro d h
    rcases hm : matchOne m.kind buf with _ | _ | len
    · simp only [bestFrom, hm] at h; exact Nat.le_of_succ_le (ih h)
    · simp only [bestFrom, hm] at h; exact Nat.le_of_succ_le (ih h)
    · rcases hr : bestFrom buf (i + 1) rest with _ | b
      · simp only [bestFrom, hm, hr] at h; cases h; exact Nat.le_refl _
      · simp only [bestFrom, hm, hr] at h
        split at h
        · cases h; exact Nat.le_of_succ_le (ih hr)
        · cases h; exact Nat.le_refl _

lemma hasDef_idx_ge {buf : List Nat} :
    ∀ {i : Nat} {ms : List TokenMatcher} {c : Cand},
      hasDef buf c i ms = true → i ≤ c.idx := by
  intro i ms
  induction ms generalizing i with
  | nil => intro c h; simp [hasDef] at h
  | cons m rest ih =>
    intro c h
    simp only [hasDef, Bool.or_eq_true, Bool.and_eq_true] at h
    rcases h with ⟨⟨⟨_, _⟩, _⟩, hi⟩ | h
    · simp only [beq_iff_eq] at hi
      omega
    · exact Nat.le_of_succ_le (ih h)

lemma bestFrom_hasDef {buf : List Nat} :
    ∀ {i : Nat} {ms : List TokenMatcher} {d : Cand},
      bestFrom buf i ms = some d → hasDef buf d i ms = true := by
  intro i ms
  induction ms generalizing i with
  | nil => intro d h; simp [bestFrom] at h
  | cons m rest ih =>
    intro d h
    simp only [hasDef, Bool.or_eq_true, Bool.and_eq_true]
    rcases hm : matchOne m.kind buf with _ | _ | len
    · simp only [bestFrom, hm] at h; exact Or.inr (ih h)
    · simp only [bestFrom, hm] at h; exact Or.inr (ih h)
    · rcases hr : bestFrom buf (i + 1) rest with _ | b
      · simp only [bestFrom, hm, hr] at h
        cases h
        exact Or.inl ⟨⟨⟨by simp [hm], by simp⟩, by simp⟩, by simp⟩
      · simp only [bestFrom, hm, hr] at h
        split at h
        · cases h; exact Or.inr (ih hr)
        · cases h
          exact Or.inl ⟨⟨⟨by simp [hm], by simp⟩, by simp⟩, by simp⟩

lemma hasDef_append {buf ext : List Nat} :
    ∀ {i : Nat} {ms : List TokenMatcher} {c : Cand},
      hasDef buf c i ms = true → hasDef (buf ++ ext) c i ms = true := by
  intro i ms
  induction ms generalizing i with
  | nil => intro c h; simp [hasDef] at h
  | cons m rest ih =>
    intro c h
    simp only [hasDef, Bool.or_eq_true, Bool.and_eq_true] at h ⊢
    rcases h with ⟨⟨⟨hm, hp⟩, ht⟩, hi⟩ | h
    · refine Or.inl ⟨⟨⟨?_, hp⟩, ht⟩, hi⟩
      simp only [beq_iff_eq] at hm ⊢
      exact matchOne_definite_append ext hm
    · exact Or.inr (ih h)

lemma hasDef_unique {buf : List Nat} :
    ∀ {i : Nat} {ms : List TokenMatcher} {c c' : Cand},
      hasDef buf c i ms = true → hasDef buf c' i ms = true →
      c.idx = c'.idx → c = c' := by
  intro i ms
  induction ms generalizing i with
  | nil => intro c c' h; simp [hasDef] at h
  | cons m rest ih =>
    intro c c' h h' hidx
    simp only [hasDef, Bool.or_eq_true, Bool.and_eq_true] at h h'
    rcases h with ⟨⟨⟨hm, hp⟩, ht⟩, hi⟩ | h
    · rcases h' with ⟨⟨⟨hm', hp'⟩, ht'⟩, hi'⟩ | h'
      · simp only [beq_iff_eq] at hm hp ht hi hm' hp' ht' hi'
        rw [hm] at hm'
        cases c; cases c'
        simp_all
      · have := hasDef_idx_ge h'
        simp only [beq_iff_eq] at hi
        omega
    · rcases h' with ⟨⟨⟨hm', hp'⟩, ht'⟩, hi'⟩ | h'
      · have := hasDef_idx_ge h
        simp only [beq_iff_eq] at hi'
        omega
      · exact ih h h' hidx

lemma defBeats_false_of_bestFrom_none {buf : List Nat} :
    ∀ {i : Nat} {ms : List TokenMatcher} (x : Cand),
      bestFrom buf i ms = none → defBeats buf x i ms = false := by
  intro i ms
  induction ms generalizing i with
  | nil => intro x _; simp [defBeats]
  | cons m rest ih =>
    intro x h
    rcases hm : matchOne m.kind buf with _ | _ | len
    · simp only [bestFrom, hm] at h
      simp only [defBeats, hm, Bool.or_eq_false_iff]
      exact ⟨by simp, ih x h⟩
    · simp only [bestFrom, hm] at h
      simp only [defBeats, hm, Bool.or_eq_false_iff]
      exact ⟨by simp, ih x h⟩
    · rcases hr : bestFrom buf (i + 1) rest with _ | b
      · simp [bestFrom, hm, hr] at h
      · simp only [bestFrom, hm, hr] at h
        split at h <;> simp at h

lemma defBeats_shift {buf : List Nat} :
    ∀ {i : Nat} {ms : List TokenMatcher} {b c : Cand},
      defBeats buf b i ms = false → beats c b = true →
      defBeats buf c i ms = false := by
  intro i ms
  induction ms generalizing i with
  | nil => intro b c _ _; simp [defBeats]
  | cons m rest ih =>
    intro b c h hcb
    simp only [defBeats, Bool.or_eq_false_iff] at h ⊢
    obtain ⟨h1, h2⟩ := h
    refine ⟨?_, ih h2 hcb⟩
    rcases hm : matchOne m.kind buf with _ | _ | len
    · simp [hm]
    · simp [hm]
    · simp only [hm] at h1 ⊢
      rcases hec : beats ⟨i, m.priority, m.id, len⟩ c with _ | _
      · rfl
      · exfalso
        have hb := beats_trans hec hcb
        rw [hb] at h1
        simp at h1

lemma hasDef_defBeats {buf : List Nat} :
    ∀ {i : Nat} {ms : List TokenMatcher} {c x : Cand},
      hasDef buf c i ms = true → defBeats buf x i ms = false →
      beats c x = false := by
  intro i ms
  induction ms generalizing i with
  | nil => intro c x h; simp [hasDef] at h
  | cons m rest ih =>
    intro c x h hdb
    simp only [hasDef, Bool.or_eq_true, Bool.and_eq_true] at h
    simp only [defBeats, Bool.or_eq_false_iff] at hdb
    rcases h with ⟨⟨⟨hm, hp⟩, ht⟩, hi⟩ | h
    · simp only [beq_iff_eq] at hm hp ht hi
      have h1 := hdb.1
      simp only [hm] at h1
      have hc : (⟨i, m.priority, m.id, c.len⟩ : Cand) = c := by
        cases c
        simp_all
      rwa [hc] at h1
    · exact ih h hdb.2

lemma bestFrom_not_beaten {buf : List Nat} :
    ∀ {i : Nat} {ms : List TokenMatcher} {d : Cand},
      bestFrom buf i ms = some d → defBeats buf d i ms = false := by
  intro i ms
  induction ms generalizing i with
  | nil => intro d h; simp [bestFrom] at h
  | cons m rest ih =>
    intro d h
    rcases hm : matchOne m.kind buf with _ | _ | len
    · simp only [bestFrom, hm] at h
      simp only [defBeats, hm, Bool.or_eq_false_iff]
      exact ⟨by simp, ih h⟩
    · simp only [bestFrom, hm] at h
      simp only [defBeats, hm, Bool.or_eq_false_iff]
      exact ⟨by simp, ih h⟩
    · simp only [defBeats, hm, Bool.or_eq_false_iff]
      rcases hr : bestFrom buf (i + 1) rest with _ | b
      · simp only [bestFrom, hm, hr] at h
        cases h
        exact ⟨beats_irrefl _, defBeats_false_of_bestFrom_none _ hr⟩
      · simp only [bestFrom, hm, hr] at h
        rcases hbc : beats b ⟨i, m.priority, m.id, len⟩ with _ | _
        · rw [hbc] at h
          simp only [Bool.false_eq_true, if_false] at h
          cases h
          have hne : b.idx ≠ (⟨i, m.priority, m.id, len⟩ : Cand).idx := by
            have := bestFrom_idx_ge hr
            simp only
            omega
          have hcb : beats ⟨i, m.priority, m.id, len⟩ b = true :=
            beats_total_of_idx_ne hne hbc
          exact ⟨beats_irrefl _, defBeats_shift (ih hr) hcb⟩
        · rw [hbc] at h
          simp only [if_true] at h
          cases h
          exact ⟨beats_asymm hbc, ih hr⟩

lemma pendBeats_false_append {buf ext : List Nat} {d : Cand} :
    ∀ {i : Nat} {ms : List TokenMatcher},
      pendBeats buf d i ms = false → pendBeats (buf ++ ext) d i ms = false := by
  intro i ms
  induction ms generalizing i with
  | nil => intro _; simp [pendBeats]
  | cons m rest ih =>
    intro h
    simp only [pendBeats, Bool.or_eq_false_iff, Bool.and_eq_false_iff] at h ⊢
    refine ⟨?_, ih h.2⟩
    rcases hm : matchOne m.kind (buf ++ ext) with _ | _ | len
    · exact Or.inl (by simp [MRes.isNeedMore])
    · have hold : matchOne m.kind buf = .needMore :=
        matchOne_needMore_of_append hm
      rcases h.1 with h1 | h1
      · rw [hold] at h1
        simp [MRes.isNeedMore] at h1
      · exact Or.inr h1
    · exact Or.inl (by simp [MRes.isNeedMore])

lemma bestFrom_none_append {buf ext : List Nat} :
    ∀ {i : Nat} {ms : List TokenMatcher},
      bestFrom buf i ms = none → anyPendB buf ms = false →
      bestFrom (buf ++ ext) i ms = none ∧ anyPendB (buf ++ ext) ms = false := by
  intro i ms
  induction ms generalizing i with
  | nil => intro _ _; simp [bestFrom, anyPendB]
  | cons m rest ih =>
    intro h hp
    simp only [anyPendB, List.any_cons, Bool.or_eq_false_iff] at hp
    rcases hm : matchOne m.kind buf with _ | _ | len
    · simp only [bestFrom, hm] at h
      have := ih h hp.2
      have hnew : matchOne m.kind (buf ++ ext) = .noMatch :=
        matchOne_noMatch_append ext hm
      constructor
      · simp only [bestFrom, hnew]
        exact this.1
      · simp only [anyPendB, List.any_cons, Bool.or_eq_false_iff, hnew]
        exact ⟨by simp [MRes.isNeedMore], this.2⟩
    · rw [hm] at hp
      simp [MRes.isNeedMore] at hp
    · rcases hr : bestFrom buf (i + 1) rest with _ | b
      · simp [bestFrom, hm, hr] at h
      · simp only [bestFrom, hm, hr] at h
        split at h <;> simp at h

lemma bestFrom_ext {buf ext : List Nat} {d : Cand} :
    ∀ {i : Nat} {ms : List TokenMatcher},
      pendBeats buf d i ms = false → defBeats buf d i ms = false →
      (bestFrom buf i ms = none ∧
        (bestFrom (buf ++ ext) i ms = none ∨
          ∃ b', bestFrom (buf ++ ext) i ms = some b' ∧ beats b' d = false)) ∨
      (∃ b b', bestFrom buf i ms = some b ∧
        bestFrom (buf ++ ext) i ms = some b' ∧
        (b' = b ∨ beats b' d = false)) := by
  intro i ms
  induction ms generalizing i with
  | nil =>
    intro _ _
    exact Or.inl ⟨rfl, Or.inl rfl⟩
  | cons m rest ih =>
    intro hp hd
    simp only [pendBeats, Bool.or_eq_false_iff, Bool.and_eq_false_iff] at hp
    simp only [defBeats, Bool.or_eq_false_iff] at hd
    have IH := ih hp.2 hd.2
    rcases hm : matchOne m.kind buf with _ | _ | len
    · -- head does not match: both sides defer to the rest
      have hm' := matchOne_noMatch_append ext hm
      have e1 : bestFrom buf i (m :: rest) = bestFrom buf (i + 1) rest := by
        simp [bestFrom, hm]
      have e2 : bestFrom (buf ++ ext) i (m :: rest)
          = bestFrom (buf ++ ext) (i + 1) rest := by
        simp [bestFrom, hm']
      rw [e1, e2]
      exact IH
    · -- head pending: it cannot beat d
      have hpb : beats ⟨i, m.priority, m.id, 0⟩ d = false := by
        rcases hp.1 with h1 | h1
        · rw [hm] at h1
          simp [MRes.isNeedMore] at h1
        · exact h1
      have e1 : bestFrom buf i (m :: rest) = bestFrom buf (i + 1) rest := by
        simp [bestFrom, hm]
      rcases hm' : matchOne m.kind (buf ++ ext) with _ | _ | len'
      · have e2 : bestFrom (buf ++ ext) i (m :: rest)
            = bestFrom (buf ++ ext) (i + 1) rest := by
          simp [bestFrom, hm']
        rw [e1, e2]
        exact IH
      · have e2 : bestFrom (buf ++ ext) i (m :: rest)
            = bestFrom (buf ++ ext) (i + 1) rest := by
          simp [bestFrom, hm']
        rw [e1, e2]
        exact IH
      · -- head became definite in the extended buffer
        have hc'd : beats ⟨i, m.priority, m.id, len'⟩ d = false := by
          rw [@beats_len_irrel i m.priority m.id len' 0 d]
          exact hpb
        rcases IH with ⟨hbn, hnew⟩ | ⟨b, b', hb, hb', hrel⟩
        · rw [e1, hbn]
          rcases hnew with hnn | ⟨b', hb', hbd⟩
          · have e2 : bestFrom (buf ++ ext) i (m :: rest)
                = some ⟨i, m.priority, m.id, len'⟩ := by
              simp [bestFrom, hm', hnn]
            exact Or.inl ⟨rfl, Or.inr ⟨_, e2, hc'd⟩⟩
          · rcases hbc : beats b' ⟨i, m.priority, m.id, len'⟩ with _ | _
            · have e2 : bestFrom (buf ++ ext) i (m :: rest)
                  = some ⟨i, m.priority, m.id, len'⟩ := by
                simp [bestFrom, hm', hb', hbc]
              exact Or.inl ⟨rfl, Or.inr ⟨_, e2, hc'd⟩⟩
            · have e2 : bestFrom (buf ++ ext) i (m :: rest) = some b' := by
                simp [bestFrom, hm', hb', hbc]
              exact Or.inl ⟨rfl, Or.inr ⟨_, e2, hbd⟩⟩
        · rw [e1]
          rcases hbc : beats b' ⟨i, m.priority, m.id, len'⟩ with _ | _
          · have e2 : bestFrom (buf ++ ext) i (m :: rest)
                = some ⟨i, m.priority, m.id, len'⟩ := by
              simp [bestFrom, hm', hb', hbc]
            exact Or.inr ⟨b, _, hb, e2, Or.inr hc'd⟩
          · have e2 : bestFrom (buf ++ ext) i (m :: rest) = some b' := by
              simp [bestFrom, hm', hb', hbc]
            exact Or.inr ⟨b, b', hb, e2, hrel⟩
    · -- head definite: stable under extension, and it cannot beat d
      have hcd : beats ⟨i, m.priority, m.id, len⟩ d = false := by
        have h1 := hd.1
        simpa only [hm] using h1
      have hm' := matchOne_definite_append ext hm
      rcases IH with ⟨hbn, hnew⟩ | ⟨b, b', hb, hb', hrel⟩
      · have e1 : bestFrom buf i (m :: rest)
            = some ⟨i, m.priority, m.id, len⟩ := by
          simp [bestFrom, hm, hbn]
        rcases hnew with hnn | ⟨b', hb', hbd⟩
        · have e2 : bestFrom (buf ++ ext) i (m :: rest)
              = some ⟨i, m.priority, m.id, len⟩ := by
            simp [bestFrom, hm', hnn]
          exact Or.inr ⟨_, _, e1, e2, Or.inl rfl⟩
        · rcases hbc : beats b' ⟨i, m.priority, m.id, len⟩ with _ | _
          · have e2 : bestFrom (buf ++ ext) i (m :: rest)
                = some ⟨i, m.priority, m.id, len⟩ := by
              simp [bestFrom, hm', hb', hbc]
            exact Or.inr ⟨_, _, e1, e2, Or.inl rfl⟩
          · have e2 : bestFrom (buf ++ ext) i (m :: rest) = some b' := by
              simp [bestFrom, hm', hb', hbc]
            exact Or.inr ⟨_, _, e1, e2, Or.inr hbd⟩
      · rcases hrel with rfl | hbd
        · -- the best of the rest is unchanged: the head combines equally
          rcases hbc : beats b' ⟨i, m.priority, m.id, len⟩ with _ | _
          · have e1 : bestFrom buf i (m :: rest)
                = some ⟨i, m.priority, m.id, len⟩ := by
              simp [bestFrom, hm, hb, hbc]
            have e2 : bestFrom (buf ++ ext) i (m :: rest)
                = some ⟨i, m.priority, m.id, len⟩ := by
              simp [bestFrom, hm', hb', hbc]
            exact Or.inr ⟨_, _, e1, e2, Or.inl rfl⟩
          · have e1 : bestFrom buf i (m :: rest) = some b' := by
              simp [bestFrom, hm, hb, hbc]
            have e2 : bestFrom (buf ++ ext) i (m :: rest) = some b' := by
              simp [bestFrom, hm', hb', hbc]
            exact Or.inr ⟨_, _, e1, e2, Or.inl rfl⟩
        · -- the best of the rest changed, but does not beat d
          rcases hbco : beats b ⟨i, m.priority, m.id, len⟩ with _ | _
          all_goals rcases hbcn : beats b' ⟨i, m.priority, m.id, len⟩ with _ | _
          · have e1 : bestFrom buf i (m :: rest)
                = some ⟨i, m.priority, m.id, len⟩ := by
              simp [bestFrom, hm, hb, hbco]
            have e2 : bestFrom (buf ++ ext) i (m :: rest)
                = some ⟨i, m.priority, m.id, len⟩ := by
              simp [bestFrom, hm', hb', hbcn]
            exact Or.inr ⟨_, _, e1, e2, Or.inl rfl⟩
          · have e1 : bestFrom buf i (m :: rest)
                = some ⟨i, m.priority, m.id, len⟩ := by
              simp [bestFrom, hm, hb, hbco]
            have e2 : bestFrom (buf ++ ext) i (m :: rest) = some b' := by
              simp [bestFrom, hm', hb', hbcn]
            exact Or.inr ⟨_, _, e1, e2, Or.inr hbd⟩
          · have e1 : bestFrom buf i (m :: rest) = some b := by
              simp [bestFrom, hm, hb, hbco]
            have e2 : bestFrom (buf ++ ext) i (m :: rest)
                = some ⟨i, m.priority, m.id, len⟩ := by
              simp [bestFrom, hm', hb', hbcn]
            exact Or.inr ⟨_, _, e1, e2, Or.inr hcd⟩
          · have e1 : bestFrom buf i (m :: rest) = some b := by
              simp [bestFrom, hm, hb, hbco]
            have e2 : bestFrom (buf ++ ext) i (m :: rest) = some b' := by
              simp [bestFrom, hm', hb', hbcn]
            exact Or.inr ⟨_, _, e1, e2, Or.inr hbd⟩

/-- Chunk safety of the lexer: a selected token is still selected, with
the same type, offset and length, after more bytes are appended to the
buffer.  This is the property that makes incremental parsing safe
across arbitrary chunk boundaries. -/
lemma lexer_tok_append {ms : List TokenMatcher} {buf : List Nat} {d : Cand}
    (ext : List Nat) (h : lexer ms buf = .tok d) :
    lexer ms (buf ++ ext) = .tok d := by
  have hb : bestFrom buf 0 ms = some d ∧ pendBeats buf d 0 ms = false := by
    rcases hb0 : bestFrom buf 0 ms with _ | d₀
    · simp only [lexer, hb0] at h
      split at h <;> simp at h
    · simp only [lexer, hb0] at h
      rcases hp0 : pendBeats buf d₀ 0 ms with _ | _
      · simp only [hp0, Bool.false_eq_true, if_false, LexRes.tok.injEq] at h
        subst h
        exact ⟨rfl, hp0⟩
      · simp [hp0] at h
  have hdb : defBeats buf d 0 ms = false := bestFrom_not_beaten hb.1
  have hext := @bestFrom_ext buf ext d 0 ms hb.2 hdb
  rcases hext with ⟨hbn, _⟩ | ⟨b, b', hbo, hbn, hrel⟩
  · rw [hb.1] at hbn
    simp at hbn
  · rw [hb.1] at hbo
    injection hbo with hbo'
    subst hbo'
    have hb'd : b' = d := by
      rcases hrel with rfl | hbd
      · rfl
      · -- b' does not beat d, and nothing definite beats b'; conclude b' = d
        have hD : hasDef (buf ++ ext) d 0 ms := hasDef_append (bestFrom_hasDef hb.1)
        have hDb' : defBeats (buf ++ ext) b' 0 ms = false := bestFrom_not_beaten hbn
        have hdb' : beats d b' = false := hasDef_defBeats hD hDb'
        by_cases hidx : b'.idx = d.idx
        · exact hasDef_unique (bestFrom_hasDef hbn) hD hidx
        · have ht := beats_total_of_idx_ne (show b'.idx ≠ d.idx by simpa using hidx) hbd
          rw [ht] at hdb'
          simp at hdb'
    subst hb'd
    simp [lexer, hbn, pendBeats_false_append hb.2]

/-- A lexical error (no matcher applies) is stable under appending more
bytes. -/
lemma lexer_noTok_append {ms : List TokenMatcher} {buf : List Nat}
    (ext : List Nat) (h : lexer ms buf = .noTok) :
    lexer ms (buf ++ ext) = .noTok := by
  have hb : bestFrom buf 0 ms = none ∧ anyPendB buf ms = false := by
    rcases hb0 : bestFrom buf 0 ms with _ | d₀
    · refine ⟨rfl, ?_⟩
      simp only [lexer, hb0] at h
      rcases hp0 : anyPendB buf ms with _ | _
      · rfl
      · simp [hp0] at h
    · simp only [lexer, hb0] at h
      split at h <;> simp at h
  have hn := @bestFrom_none_append buf ext 0 ms hb.1 hb.2
  simp [lexer, hn.1, hn.2]

lemma lexer_tok_pos {ms : List TokenMatcher} {buf : List Nat} {d : Cand}
    (h : lexer ms buf = .tok d) : 0 < d.len := by
  rcases hb0 : bestFrom buf 0 ms with _ | d₀
  · simp only [lexer, hb0] at h
    split at h <;> simp at h
  · simp only [lexer, hb0] at h
    split at h
    · simp at h
    · simp only [LexRes.tok.injEq] at h
      subst h
      exact bestFrom_pos hb0

lemma lexer_tok_le {ms : List TokenMatcher} {buf : List Nat} {d : Cand}
    (h : lexer ms buf = .tok d) : d.len ≤ buf.length := by
  rcases hb0 : bestFrom buf 0 ms with _ | d₀
  · simp only [lexer, hb0] at h
    split at h <;> simp at h
  · simp only [lexer, hb0] at h
    split at h
    · simp at h
    · simp only [LexRes.tok.injEq] at h
      subst h
      exact bestFrom_le hb0

/-! ## Grammar, events, and parser instance state

Modelled from the spec, sections 3 and 4: a `Grammar` is an immutable
bundle `{ matchers (ordered), skip_types, states, initial_state }`; a
`State` declares its allowed token types and, per token type, an event
list and a successor state; an `Event` is a discrete structural
notification; a `ParserInstance` owns an incremental buffer, the
current state id, an error tracker `{ code, message }`, the registered
consumer, and the sequences of produced and delivered events.  The
`srcType` field of an `Event` records the token type the event
originated from (`none` for error and end-of-document events); it is
bookkeeping used to state the spec's skip-exclusion property. -/

/-- Modelled from the spec: one transition of a state —
`transitions[T] = (EventSpec list, next)`. -/
structure Trans where
  ttype : Nat
  events : List Nat
  next : Nat
deriving DecidableEq, Repr

/-- Modelled from the spec: a state
`{ id, allowed : set of TokenTypeId, transitions }`. -/
structure StateRow where
  sid : Nat
  allowed : List Nat
  transitions : List Trans
deriving DecidableEq, Repr

/-- Modelled from the spec: a grammar
`{ matchers (ordered), skip_types, states, initial_state }`. -/
structure Grammar where
  matchers : List TokenMatcher
  skip_types : List Nat
  states : List StateRow
  initial_state : Nat
deriving DecidableEq, Repr

/-- Modelled from the spec: a token
`{ type, start_offset, length, payload }`. -/
structure Token where
  type : Nat
  start_offset : Nat
  length : Nat
  payload : List Nat
deriving DecidableEq, Repr

/-- Modelled from the spec: an event `{ kind, data, offset }` plus the
`srcType` provenance annotation (the type of the token the event was
produced from, `none` for error and end-of-document events). -/
structure Event where
  kind : Nat
  data : List Nat
  offset : Nat
  srcType : Option Nat
deriving DecidableEq, Repr

/-- Modelled from the spec: the mutable per-instance state of a
`ParserInstance` — incremental buffer, global offset of the buffer
start, current state id, produced events, events delivered to the
consumer, registered consumer (an opaque handler id), the error
tracker `{ errCode, errMsg }`, and the halted flag set when a lexical
or structural error stops the instance. -/
structure PState where
  buf : List Nat
  base : Nat
  cur : Nat
  events : List Event
  delivered : List Event
  handler : Option Nat
  errCode : Nat
  errMsg : Option String
  halted : Bool
deriving DecidableEq, Repr

/-- Modelled from the spec, section 4.4: dispatch a batch of events in
order — they are appended to the produced sequence and, when a
consumer is registered, delivered to it; with no consumer the dispatch
is a no-op on the delivered sequence and parsing proceeds. -/
def dispatchEvs (evs : List Event) (s : PState) : PState :=
  { s with
    events := s.events ++ evs,
    delivered := s.delivered ++ (match s.handler with
      | some _ => evs
      | none => []) }

/-- Modelled from the spec: the error event emitted on a failure,
carrying the byte offset of the failure. -/
def errEvent (off : Nat) : Event :=
  ⟨ZP_EVENT_ERROR, [], off, none⟩

/-- Modelled from the spec: the end-of-document event emitted by a
successful finish. -/
def endDocEvent (off : Nat) : Event :=
  ⟨ZP_EVENT_END_DOCUMENT, [], off, none⟩

/-- Modelled from the spec, section 4.5: the single failure path — set
the error tracker's code and message, emit an error event, and halt
the instance (its remaining buffer is discarded; the instance is
non-advancing until destroyed). -/
def haltWith (code : Nat) (msg : String) (off : Nat) (s : PState) : PState :=
  { dispatchEvs [errEvent off] s with
    halted := true, buf := [], errCode := code, errMsg := some msg }

/-- Modelled from the spec: instantiate a transition's event specs for
a token; value events carry the token payload, all events carry the
token's start offset and are tagged with the originating token type. -/
def mkEvents (kinds : List Nat) (t : Token) : List Event :=
  kinds.map fun k =>
    ⟨k, if k == ZP_EVENT_VALUE then t.payload else [], t.start_offset, some t.type⟩

/-- Look up a state row by id in the grammar's state table. -/
def findState (g : Grammar) (sid : Nat) : Option StateRow :=
  g.states.find? fun r => r.sid == sid

/-- Look up the transition for a token type in a state row. -/
def findTrans (row : StateRow) (t : Nat) : Option Trans :=
  row.transitions.find? fun tr => tr.ttype == t

/-- Modelled from the spec, section 4.3: feed one non-skip token to the
state machine.  A token type outside the current state's allowed set
fails with an unexpected-token error (tracker updated, error event
emitted, instance halted); otherwise the transition's events are
emitted in declared order and the machine moves to the next state.  A
missing current state is a configuration error. -/
def feedToken (g : Grammar) (s : PState) (t : Token) : PState :=
  match findState g s.cur with
  | none =>
    haltWith ZP_ERROR_PARSER_CONFIG "current state missing from grammar"
      t.start_offset s
  | some row =>
    if t.type ∈ row.allowed then
      match findTrans row t.type with
      | some tr => { dispatchEvs (mkEvents tr.events t) s with cur := tr.next }
      | none =>
        haltWith ZP_ERROR_UNEXPECTED_TOKEN
          "no transition for token in current state" t.start_offset s
    else haltWith ZP_ERROR_UNEXPECTED_TOKEN "unexpected token" t.start_offset s

lemma feedToken_buf_le (g : Grammar) (s : PState) (t : Token) :
    (feedToken g s t).buf.length ≤ s.buf.length := by
  unfold feedToken
  rcases findState g s.cur with _ | row
  · simp [haltWith, dispatchEvs]
  · dsimp only
    split
    · rcases findTrans row t.type with _ | tr
      · simp [haltWith, dispatchEvs]
      · simp [dispatchEvs]
    · simp [haltWith, dispatchEvs]

/-- Modelled from the spec, sections 2 and 4: the engine loop, with
explicit fuel (one unit per consumed token; the buffer length always
suffices).  Tokens are pulled from the incremental buffer by the lexer;
skip-type tokens advance the cursor and are forwarded to nothing
downstream; other tokens are fed to the state machine; `NeedMoreInput`
suspends, leaving the unconsumed tail in the buffer verbatim; `NoMatch`
is a lexical error; a halted instance accepts no further tokens. -/
def driveF (g : Grammar) : Nat → PState → PState
  | 0, s => s
  | fuel + 1, s =>
    if s.halted then s
    else
      match s.buf with
      | [] => s
      | _ :: _ =>
        match lexer g.matchers s.buf with
        | .needMore => s
        | .noTok =>
          haltWith ZP_ERROR_UNEXPECTED_TOKEN "no token matcher applies" s.base s
        | .tok c =>
          if c.tid ∈ g.skip_types then
            driveF g fuel { s with buf := s.buf.drop c.len, base := s.base + c.len }
          else
            let s2 := feedToken g
              { s with buf := s.buf.drop c.len, base := s.base + c.len }
              ⟨c.tid, s.base, c.len, s.buf.take c.len⟩
            if s2.halted then s2 else driveF g fuel s2

/-- Modelled from the spec: the engine loop — `driveF` with the buffer
length as fuel, which always suffices since every consumed token is at
least one byte long. -/
def drive (g : Grammar) (s : PState) : PState :=
  driveF g s.buf.length s

lemma driveF_stuck {g : Grammar} {s : PState} (f : Nat)
    (h : s.buf = [] ∨ s.halted = true) : driveF g f s = s := by
  cases f with
  | zero => rfl
  | succ n =>
    rcases h with h | h
    · rw [driveF]
      split
      · rfl
      · split
        · rfl
        · rename_i heq
          rw [h] at heq
          cases heq
    · rw [driveF, if_pos h]

/-- Fuel irrelevance: any fuel at least the buffer length computes the
same result. -/
lemma driveF_congr (g : Grammar) :
    ∀ (f1 : Nat) {s : PState} {f2 : Nat}, s.buf.length ≤ f1 →
      s.buf.length ≤ f2 → driveF g f1 s = driveF g f2 s := by
  intro f1
  induction f1 with
  | zero =>
    intro s f2 h1 _
    have hnil : s.buf = [] := by
      cases hb : s.buf
      · rfl
      · rw [hb] at h1
        simp at h1
    rw [driveF_stuck _ (Or.inl hnil), driveF_stuck _ (Or.inl hnil)]
  | succ n ih =>
    intro s f2 h1 h2
    cases f2 with
    | zero =>
      have hnil : s.buf = [] := by
        cases hb : s.buf
        · rfl
        · rw [hb] at h2
          simp at h2
      rw [driveF_stuck _ (Or.inl hnil), driveF_stuck _ (Or.inl hnil)]
    | succ m =>
      rcases hh : s.halted with _ | _
      · rw [driveF, driveF, if_neg (by simp [hh]), if_neg (by simp [hh])]
        split
        · rfl
        · rename_i y ys heq
          rcases hx : lexer g.matchers s.buf with _ | _ | c
          · simp only [hx]
          · simp only [hx]
          · simp only [hx]
            have hppos := lexer_tok_pos hx
            split
            · refine ih ?_ ?_ <;> (simp only [List.length_drop]; omega)
            · obtain ⟨f, hF⟩ : ∃ z, feedToken g
                  { s with buf := s.buf.drop c.len, base := s.base + c.len }
                  ⟨c.tid, s.base, c.len, s.buf.take c.len⟩ = z := ⟨_, rfl⟩
              have hfl := feedToken_buf_le g
                { s with buf := s.buf.drop c.len, base := s.base + c.len }
                ⟨c.tid, s.base, c.len, s.buf.take c.len⟩
              rw [hF] at hfl ⊢
              show (if f.halted then f else driveF g n f)
                = (if f.halted then f else driveF g m f)
              rcases hf2 : f.halted with _ | _
              · rw [if_neg (show ¬(false = true) by simp)]
                rw [if_neg (show ¬(false = true) by simp)]
                simp only [List.length_drop] at hfl
                refine ih ?_ ?_ <;> omega
              · rfl
      · rw [driveF_stuck _ (Or.inr hh), driveF_stuck _ (Or.inr hh)]

lemma drive_halted {g : Grammar} {s : PState} (h : s.halted = true) :
    drive g s = s := by
  rw [drive]
  exact driveF_stuck _ (Or.inr h)

lemma drive_nil {g : Grammar} {s : PState} (h : s.buf = []) :
    drive g s = s := by
  rw [drive]
  exact driveF_stuck _ (Or.inl h)

lemma drive_needMore {g : Grammar} {s : PState}
    (h2 : lexer g.matchers s.buf = .needMore) : drive g s = s := by
  by_cases hb : s.buf = []
  · rw [drive]
    exact driveF_stuck _ (Or.inl hb)
  · obtain ⟨k, hk⟩ : ∃ k, s.buf.length = k + 1 := by
      cases hbx : s.buf with
      | nil => exact absurd hbx hb
      | cons y ys => exact ⟨ys.length, rfl⟩
    rw [drive, hk, driveF]
    split
    · rfl
    · split
      · rfl
      · split
        · rfl
        · rename_i hx
          rw [h2] at hx
          cases hx
        · rename_i hx
          rw [h2] at hx
          cases hx

lemma drive_noTok {g : Grammar} {s : PState} (h1 : s.halted = false)
    (hb : s.buf ≠ []) (h2 : lexer g.matchers s.buf = .noTok) :
    drive g s =
      haltWith ZP_ERROR_UNEXPECTED_TOKEN "no token matcher applies" s.base s := by
  obtain ⟨k, hk⟩ : ∃ k, s.buf.length = k + 1 := by
    cases hbx : s.buf with
    | nil => exact absurd hbx hb
    | cons y ys => exact ⟨ys.length, rfl⟩
  rw [drive, hk, driveF]
  split
  · rename_i hh
    rw [h1] at hh
    cases hh
  · split
    · rename_i heq
      exact absurd heq hb
    · split
      · rename_i hx
        rw [h2] at hx
        cases hx
      · rfl
      · rename_i hx
        rw [h2] at hx
        cases hx

lemma drive_tok_skip {g : Grammar} {s : PState} {c : Cand}
    (h1 : s.halted = false) (hb : s.buf ≠ [])
    (h2 : lexer g.matchers s.buf = .tok c) (hskip : c.tid ∈ g.skip_types) :
    drive g s = drive g { s with buf := s.buf.drop c.len, base := s.base + c.len } := by
  have hppos := lexer_tok_pos h2
  obtain ⟨k, hk⟩ : ∃ k, s.buf.length = k + 1 := by
    cases hbx : s.buf with
    | nil => exact absurd hbx hb
    | cons y ys => exact ⟨ys.length, rfl⟩
  rw [drive, hk, driveF]
  split
  · rename_i hh
    rw [h1] at hh
    cases hh
  · split
    · rename_i heq
      exact absurd heq hb
    · split
      · rename_i hx
        rw [h2] at hx
        cases hx
      · rename_i hx
        rw [h2] at hx
        cases hx
      · rename_i c2 hx
        rw [h2] at hx
        cases hx
        rw [if_pos hskip, drive]
        refine driveF_congr g k ?_ le_rfl
        simp only [List.length_drop]
        omega

lemma drive_tok_feed {g : Grammar} {s : PState} {c : Cand}
    (h1 : s.halted = false) (hb : s.buf ≠ [])
    (h2 : lexer g.matchers s.buf = .tok c) (hskip : c.tid ∉ g.skip_types) :
    drive g s =
      (if (feedToken g { s with buf := s.buf.drop c.len, base := s.base + c.len }
            ⟨c.tid, s.base, c.len, s.buf.take c.len⟩).halted
       then feedToken g { s with buf := s.buf.drop c.len, base := s.base + c.len }
            ⟨c.tid, s.base, c.len, s.buf.take c.len⟩
       else drive g (feedToken g
            { s with buf := s.buf.drop c.len, base := s.base + c.len }
            ⟨c.tid, s.base, c.len, s.buf.take c.len⟩)) := by
  have hppos := lexer_tok_pos h2
  obtain ⟨k, hk⟩ : ∃ k, s.buf.length = k + 1 := by
    cases hbx : s.buf with
    | nil => exact absurd hbx hb
    | cons y ys => exact ⟨ys.length, rfl⟩
  rw [drive, hk, driveF]
  split
  · rename_i hh
    rw [h1] at hh
    cases hh
  · split
    · rename_i heq
      exact absurd heq hb
    · split
      · rename_i hx
        rw [h2] at hx
        cases hx
      · rename_i hx
        rw [h2] at hx
        cases hx
      · rename_i c2 hx
        rw [h2] at hx
        cases hx
        rw [if_neg hskip]
        obtain ⟨f, hF⟩ : ∃ y, feedToken g
            { s with buf := s.buf.drop c.len, base := s.base + c.len }
            ⟨c.tid, s.base, c.len, s.buf.take c.len⟩ = y := ⟨_, rfl⟩
        have hfl := feedToken_buf_le g
          { s with buf := s.buf.drop c.len, base := s.base + c.len }
          ⟨c.tid, s.base, c.len, s.buf.take c.len⟩
        rw [hF] at hfl ⊢
        show (if f.halted then f else driveF g k f)
          = (if f.halted then f else drive g f)
        rcases hf2 : f.halted with _ | _
        · rw [if_neg (show ¬(false = true) by simp)]
          rw [if_neg (show ¬(false = true) by simp)]
          rw [drive]
          refine driveF_congr g k ?_ le_rfl
          simp only [List.length_drop] at hfl
          omega
        · rw [if_pos (show (true = true) from rfl)]
          rw [if_pos (show (true = true) from rfl)]

lemma feedToken_append (g : Grammar) (s : PState) (t : Token) (ext : List Nat)
    (h : s.halted = false) :
    feedToken g { s with buf := s.buf ++ ext } t =
      (if (feedToken g s t).halted then feedToken g s t
       else { feedToken g s t with buf := (feedToken g s t).buf ++ ext }) := by
  unfold feedToken
  dsimp only
  rcases hfs : findState g s.cur with _ | row
  · simp only [hfs]
    simp [haltWith, dispatchEvs]
  · simp only [hfs]
    split
    · rcases hft : findTrans row t.type with _ | tr
      · simp only [hft]
        simp [haltWith, dispatchEvs]
      · simp only [hft]
        simp [dispatchEvs, h]
    · simp [haltWith, dispatchEvs]

/-- Chunk safety of the engine loop: running the loop on a buffer
extended by further bytes is the same as running the loop, then
extending whatever the loop left in the buffer and running it again
(unless the loop halted with an error, which is final). -/
lemma drive_append (g : Grammar) (ext : List Nat) :
    ∀ (n : Nat) (s : PState), s.buf.length ≤ n → s.halted = false →
      drive g { s with buf := s.buf ++ ext } =
        (if (drive g s).halted then drive g s
         else drive g { drive g s with buf := (drive g s).buf ++ ext }) := by
  intro n
  induction n with
  | zero =>
    intro s hle h
    have hnil : s.buf = [] := by
      cases hb : s.buf
      · rfl
      · rw [hb] at hle
        simp at hle
    rw [drive_nil hnil]
    simp [h, hnil]
  | succ n ih =>
    intro s hle h
    by_cases hnil : s.buf = []
    · rw [drive_nil hnil]
      simp [h, hnil]
    · rcases hx : lexer g.matchers s.buf with _ | _ | c
      · -- lexical error: stable under extension, both sides halt identically
        have hx' : lexer g.matchers ((⟨s.buf ++ ext, s.base, s.cur, s.events,
            s.delivered, s.handler, s.errCode, s.errMsg, s.halted⟩ : PState)).buf
            = .noTok := lexer_noTok_append ext hx
        have hL := drive_noTok (s := { s with buf := s.buf ++ ext })
          (by simpa using h) (by simp [hnil]) hx'
        have hS := drive_noTok h hnil hx
        rw [hL, hS]
        have hh : (haltWith ZP_ERROR_UNEXPECTED_TOKEN "no token matcher applies"
            s.base s).halted = true := by
          simp [haltWith]
        rw [if_pos hh]
        simp [haltWith, dispatchEvs]
      · -- lexer suspended: the loop is the identity on the original state
        rw [drive_needMore hx]
        rw [if_neg (by simp [h])]
      · -- a token is selected: it is selected identically in the extended buffer
        have hle' : c.len ≤ s.buf.length := lexer_tok_le hx
        have hpos : 0 < c.len := lexer_tok_pos hx
        have hx' : lexer g.matchers ((⟨s.buf ++ ext, s.base, s.cur, s.events,
            s.delivered, s.handler, s.errCode, s.errMsg, s.halted⟩ : PState)).buf
            = .tok c := lexer_tok_append ext hx
        have htake : (s.buf ++ ext).take c.len = s.buf.take c.len :=
          List.take_append_of_le_length hle'
        have hdrop : (s.buf ++ ext).drop c.len = s.buf.drop c.len ++ ext :=
          List.drop_append_of_le_length hle'
        by_cases hskip : c.tid ∈ g.skip_types
        · have eL := drive_tok_skip (s := { s with buf := s.buf ++ ext })
            (by simpa using h) (by simp [hnil]) hx' hskip
          have eS := drive_tok_skip h hnil hx hskip
          rw [eL, eS]
          have ihs := ih { s with buf := s.buf.drop c.len, base := s.base + c.len }
            (by simp; omega) (by simpa using h)
          simp only [hdrop]
          exact ihs
        · obtain ⟨f, hF⟩ : ∃ f, feedToken g
              { s with buf := s.buf.drop c.len, base := s.base + c.len }
              ⟨c.tid, s.base, c.len, s.buf.take c.len⟩ = f := ⟨_, rfl⟩
          have eS := drive_tok_feed h hnil hx hskip
          rw [hF] at eS
          have hfa := feedToken_append g
            { s with buf := s.buf.drop c.len, base := s.base + c.len }
            ⟨c.tid, s.base, c.len, s.buf.take c.len⟩ ext (by simpa using h)
          dsimp only at hfa
          rw [hF] at hfa
          have eL := drive_tok_feed (s := { s with buf := s.buf ++ ext })
            (by simpa using h) (by simp [hnil]) hx' hskip
          dsimp only at eL
          rw [htake, hdrop] at eL
          rcases hf : f.halted with _ | _
          · -- the state machine accepted: recurse on the shorter buffer
            have hnf : ¬(f.halted = true) := by simp [hf]
            rw [if_neg hnf] at eS hfa
            rw [hfa] at eL
            have hA : ¬(({ f with buf := f.buf ++ ext } : PState).halted = true) := hnf
            rw [if_neg hA] at eL
            rw [eS, eL]
            have hlen : f.buf.length ≤ n := by
              have h1 := feedToken_buf_le g
                { s with buf := s.buf.drop c.len, base := s.base + c.len }
                ⟨c.tid, s.base, c.len, s.buf.take c.len⟩
              rw [hF] at h1
              simp only [List.length_drop] at h1
              omega
            exact ih f hlen hf
          · -- the state machine rejected the token: both sides halt identically
            rw [if_pos hf] at eS hfa
            rw [hfa] at eL
            rw [if_pos hf] at eL
            rw [eS, eL, if_pos hf]

/-- The engine loop is idempotent: it stops only in states it would not
advance from (halted, empty buffer, or suspended on `NeedMoreInput`). -/
lemma drive_idem (g : Grammar) :
    ∀ (n : Nat) (s : PState), s.buf.length ≤ n →
      drive g (drive g s) = drive g s := by
  intro n
  induction n with
  | zero =>
    intro s hle
    have hnil : s.buf = [] := by
      cases hb : s.buf
      · rfl
      · rw [hb] at hle
        simp at hle
    rw [drive_nil hnil, drive_nil hnil]
  | succ n ih =>
    intro s hle
    rcases hh : s.halted with _ | _
    · by_cases hnil : s.buf = []
      · rw [drive_nil hnil, drive_nil hnil]
      · rcases hx : lexer g.matchers s.buf with _ | _ | c
        · rw [drive_noTok hh hnil hx]
          exact drive_halted (by simp [haltWith])
        · rw [drive_needMore hx, drive_needMore hx]
        · have hple := lexer_tok_le hx
          have hppos := lexer_tok_pos hx
          by_cases hskip : c.tid ∈ g.skip_types
          · rw [drive_tok_skip hh hnil hx hskip]
            exact ih _ (by simp; omega)
          · have eS := drive_tok_feed hh hnil hx hskip
            obtain ⟨f, hF⟩ : ∃ f, feedToken g
                { s with buf := s.buf.drop c.len, base := s.base + c.len }
                ⟨c.tid, s.base, c.len, s.buf.take c.len⟩ = f := ⟨_, rfl⟩
            rw [hF] at eS
            rcases hf : f.halted with _ | _
            · rw [if_neg (by simp [hf])] at eS
              rw [eS]
              have hlen : f.buf.length ≤ n := by
                have h1 := feedToken_buf_le g
                  { s with buf := s.buf.drop c.len, base := s.base + c.len }
                  ⟨c.tid, s.base, c.len, s.buf.take c.len⟩
                rw [hF] at h1
                simp only [List.length_drop] at h1
                omega
              exact ih f hlen
            · rw [if_pos hf] at eS
              rw [eS]
              exact drive_halted hf
    · rw [drive_halted hh, drive_halted hh]

/-! ## The `zp_*` interface

Modelled from the spec, section 6, with the signatures and result codes
of `src/zigparse.h`.  An instance-level operation returns the header's
result code together with the successor instance state; the opaque
handle layer (`Option PState`, `none` for a destroyed handle) is
modelled separately below. -/

/-- Modelled from the spec: a fresh `ParserInstance` bound to a grammar
— empty buffer, offset zero, the grammar's initial state, no events, no
consumer, a clear error tracker, not halted. -/
def initParser (g : Grammar) : PState :=
  ⟨[], 0, g.initial_state, [], [], none, ZP_OK, none, false⟩

/-- Modelled from the spec (header `zp_parse_chunk`): feed one chunk of
input incrementally.  The chunk extends the incremental buffer and the
engine loop runs; `ZP_OK` is returned when the loop did not fail (a
`NeedMoreInput` suspension is not an error).  A halted (errored)
instance accepts no further input: the call is a no-op reporting the
stored error code. -/
def zp_parse_chunk (g : Grammar) (s : PState) (data : List Nat) : Nat × PState :=
  if s.halted then (s.errCode, s)
  else
    let s1 := drive g { s with buf := s.buf ++ data }
    (if s1.halted then s1.errCode else ZP_OK, s1)

/-- Modelled from the spec (header `zp_finish_parsing`): no more input
will arrive.  Any `NeedMoreInput` state at finish time (a non-empty
unconsumed buffer) becomes a terminal lexical error — truncated input —
emitting an error event; otherwise the end-of-document event is emitted
and `ZP_OK` returned.  On a halted instance the call is a no-op
reporting the stored error code. -/
def zp_finish_parsing (g : Grammar) (s : PState) : Nat × PState :=
  if s.halted then (s.errCode, s)
  else if s.buf.isEmpty then (ZP_OK, dispatchEvs [endDocEvent s.base] s)
  else (ZP_ERROR_EOF, haltWith ZP_ERROR_EOF "truncated input" s.base s)

/-- Modelled from the spec (header `zp_parse_string`): parse a complete
string in one call — feed the bytes, run the engine loop, then flush:
report the parse error if the loop failed, a truncation error if a
partial token remains, and otherwise emit the end-of-document event. -/
def zp_parse_string (g : Grammar) (s : PState) (data : List Nat) : Nat × PState :=
  if s.halted then (s.errCode, s)
  else
    let s1 := drive g { s with buf := s.buf ++ data }
    if s1.halted then (s1.errCode, s1)
    else if s1.buf.isEmpty then (ZP_OK, dispatchEvs [endDocEvent s1.base] s1)
    else (ZP_ERROR_EOF, haltWith ZP_ERROR_EOF "truncated input" s1.base s1)

/-- Modelled from the spec (header `zp_set_event_handler`): register
(or replace) the single event consumer of the instance. -/
def zp_set_event_handler (s : PState) (h : Option Nat) : Nat × PState :=
  (ZP_OK, { s with handler := h })

/-- Modelled from the spec (header `zp_get_error`): the last error
message of the instance, or `none` when no failure has occurred. -/
def zp_get_error (s : PState) : Option String :=
  s.errMsg

/-- Modelled from the spec (header `zp_get_error_code`): the last error
code of the instance (`ZP_OK` when no failure has occurred). -/
def zp_get_error_code (s : PState) : Nat :=
  s.errCode

/-- `zp_test` from `zigparse.h`: returns 42 when the library works. -/
def zp_test : Nat := 42

/-! ## Opaque handle layer

Modelled from the spec, section 7: "double-destruction or use of a
destroyed instance must fail with an invalid-handle-class error rather
than corrupting memory".  A handle is `some` live instance state or
`none` once destroyed. -/

/-- Modelled from the spec (header `zp_destroy_parser`): destroying a
live handle releases it; destroying an already-destroyed handle fails
with `ZP_ERROR_INVALID_HANDLE`. -/
def zp_destroy : Option PState → Nat × Option PState
  | none => (ZP_ERROR_INVALID_HANDLE, none)
  | some _ => (ZP_OK, none)

/-- Modelled from the spec: `zp_parse_chunk` through a handle; a
destroyed handle fails with `ZP_ERROR_INVALID_HANDLE`. -/
def zp_parse_chunk_h (g : Grammar) : Option PState → List Nat → Nat × Option PState
  | none, _ => (ZP_ERROR_INVALID_HANDLE, none)
  | some s, data => ((zp_parse_chunk g s data).1, some (zp_parse_chunk g s data).2)

/-- Modelled from the spec: `zp_finish_parsing` through a handle; a
destroyed handle fails with `ZP_ERROR_INVALID_HANDLE`. -/
def zp_finish_parsing_h (g : Grammar) : Option PState → Nat × Option PState
  | none => (ZP_ERROR_INVALID_HANDLE, none)
  | some s => ((zp_finish_parsing g s).1, some (zp_finish_parsing g s).2)

/-- Modelled from the spec: `zp_set_event_handler` through a handle; a
destroyed handle fails with `ZP_ERROR_INVALID_HANDLE`. -/
def zp_set_event_handler_h : Option PState → Option Nat → Nat × Option PState
  | none, _ => (ZP_ERROR_INVALID_HANDLE, none)
  | some s, hh => (ZP_OK, some { s with handler := hh })

/-- Modelled from the spec: `zp_get_error_code` through a handle; a
destroyed handle reports `ZP_ERROR_INVALID_HANDLE`. -/
def zp_get_error_code_h : Option PState → Nat
  | none => ZP_ERROR_INVALID_HANDLE
  | some s => s.errCode

/-- Modelled from the spec: `zp_get_error` through a handle; a
destroyed handle yields no message (the header's NULL). -/
def zp_get_error_h : Option PState → Option String
  | none => none
  | some s => s.errMsg

/-! ## Operation traces -/

/-- An instance-level operation of the parsing interface. -/
inductive Op where
  | feed (data : List Nat)
  | finishOp
  | setHandler (h : Option Nat)
deriving DecidableEq, Repr

/-- Run one operation on an instance, returning its result code and
the successor state. -/
def stepOp (g : Grammar) (s : PState) : Op → Nat × PState
  | .feed data => zp_parse_chunk g s data
  | .finishOp => zp_finish_parsing g s
  | .setHandler hh => zp_set_event_handler s hh

/-- Run a sequence of operations on an instance. -/
def runOps (g : Grammar) : List Op → PState → PState
  | [], s => s
  | o :: os, s => runOps g os (stepOp g s o).2

/-- The result codes of a sequence of operations, in order. -/
def opCodes (g : Grammar) : List Op → PState → List Nat
  | [], _ => []
  | o :: os, s => (stepOp g s o).1 :: opCodes g os (stepOp g s o).2

/-- Whether every operation of the sequence returns `ZP_OK`. -/
def allOk (g : Grammar) : List Op → PState → Bool
  | [], _ => true
  | o :: os, s => (stepOp g s o).1 == ZP_OK && allOk g os (stepOp g s o).2

/-- Feed a list of chunks with `zp_parse_chunk`, one call per chunk. -/
def feedChunks (g : Grammar) : List (List Nat) → PState → PState
  | [], s => s
  | c :: cs, s => feedChunks g cs (zp_parse_chunk g s c).2

/-- The concatenation of a list of chunks into one input. -/
def concatChunks : List (List Nat) → List Nat
  | [] => []
  | c :: cs => c ++ concatChunks cs

lemma chunk_state_eq {g : Grammar} {s : PState} (data : List Nat)
    (hh : s.halted = false) :
    (zp_parse_chunk g s data).2 = drive g { s with buf := s.buf ++ data } := by
  simp [zp_parse_chunk, hh]

/-- Feeding two chunks in sequence reaches exactly the state reached by
feeding their concatenation in one call. -/
lemma chunk_append (g : Grammar) (s : PState) (a b : List Nat) :
    (zp_parse_chunk g (zp_parse_chunk g s a).2 b).2 =
      (zp_parse_chunk g s (a ++ b)).2 := by
  rcases hh : s.halted with _ | _
  · rw [chunk_state_eq a hh, chunk_state_eq (a ++ b) hh]
    have hDA := drive_append g b (s.buf ++ a).length
      { s with buf := s.buf ++ a } (by simp) hh
    dsimp only at hDA
    rw [show s.buf ++ (a ++ b) = (s.buf ++ a) ++ b from
      (List.append_assoc _ _ _).symm]
    rw [hDA]
    obtain ⟨s1, hs1⟩ : ∃ x, drive g { s with buf := s.buf ++ a } = x := ⟨_, rfl⟩
    rw [hs1]
    rcases h1 : s1.halted with _ | _
    · rw [if_neg (by simp), chunk_state_eq b h1, h1]
    · simp [zp_parse_chunk, h1]
  · simp [zp_parse_chunk, hh]

/-- The state after a `zp_parse_chunk` call is a fixpoint of the engine
loop. -/
lemma parse_chunk_fix (g : Grammar) (s : PState) (data : List Nat)
    (hfix : drive g s = s) :
    drive g (zp_parse_chunk g s data).2 = (zp_parse_chunk g s data).2 := by
  rcases hh : s.halted with _ | _
  · rw [chunk_state_eq data hh]
    exact drive_idem g _ _ le_rfl
  · have e : (zp_parse_chunk g s data).2 = s := by simp [zp_parse_chunk, hh]
    rw [e]
    exact hfix

/-- Feeding chunks one call at a time reaches the state of feeding the
whole concatenation in one call. -/
lemma feedChunks_eq (g : Grammar) :
    ∀ (chunks : List (List Nat)) (s : PState), drive g s = s →
      feedChunks g chunks s = (zp_parse_chunk g s (concatChunks chunks)).2 := by
  intro chunks
  induction chunks with
  | nil =>
    intro s hfix
    rcases hh : s.halted with _ | _
    · rw [feedChunks, concatChunks, chunk_state_eq [] hh]
      have e : ({ s with buf := s.buf ++ [] } : PState) = s := by
        rw [List.append_nil]
      rw [e, hfix]
    · rw [feedChunks, concatChunks]
      simp [zp_parse_chunk, hh]
  | cons c cs ih =>
    intro s hfix
    rw [feedChunks, concatChunks]
    rw [ih (zp_parse_chunk g s c).2 (parse_chunk_fix g s c hfix)]
    rw [chunk_append]

/-! ## Claim theorems -/

/-- C1: for every input byte sequence and every way of splitting it
into contiguous chunks, calling `zp_parse_chunk` on each chunk in order
followed by `zp_finish_parsing` produces exactly the same ordered event
sequence (same kinds, same payload bytes, same offsets) as feeding the
whole concatenated input in a single `zp_parse_chunk` call followed by
`zp_finish_parsing`. -/
theorem chunk_invariance (g : Grammar) (chunks : List (List Nat)) :
    (zp_finish_parsing g (feedChunks g chunks (initParser g))).2.events =
      (zp_finish_parsing g
        (zp_parse_chunk g (initParser g) (concatChunks chunks)).2).2.events := by
  rw [feedChunks_eq g chunks (initParser g) (drive_nil rfl)]

/-- C10: for every parser instance and every input,
`zp_parse_string parser data` returns the same result code and reaches
the same state — in particular produces the same event sequence — as
`zp_parse_chunk parser data` followed by `zp_finish_parsing parser`:
the one-shot API is equivalent to a single-chunk incremental parse. -/
theorem parse_string_equiv (g : Grammar) (s : PState) (data : List Nat) :
    zp_parse_string g s data = zp_finish_parsing g (zp_parse_chunk g s data).2 := by
  rcases hh : s.halted with _ | _
  · rw [chunk_state_eq data hh]
    obtain ⟨s1, hs1⟩ : ∃ x, drive g { s with buf := s.buf ++ data } = x := ⟨_, rfl⟩
    rcases h1 : s1.halted with _ | _
    · simp [zp_parse_string, zp_finish_parsing, hh, hs1, h1]
    · simp [zp_parse_string, zp_finish_parsing, hh, hs1, h1]
  · simp [zp_parse_string, zp_parse_chunk, zp_finish_parsing, hh]

/-! ## Consumer irrelevance

The observable core of an instance (everything except the registered
consumer and the delivered-events log): parsing decisions never read
the consumer, so runs differing only in the registered consumer agree
on the core. -/

/-- The consumer-independent part of an instance state. -/
structure Core where
  buf : List Nat
  base : Nat
  cur : Nat
  events : List Event
  errCode : Nat
  errMsg : Option String
  halted : Bool
deriving DecidableEq, Repr

/-- Project the consumer-independent core of an instance state. -/
def core (s : PState) : Core :=
  ⟨s.buf, s.base, s.cur, s.events, s.errCode, s.errMsg, s.halted⟩

lemma feedToken_core (g : Grammar) (tok : Token) {s t : PState}
    (h : core s = core t) :
    core (feedToken g s tok) = core (feedToken g t tok) := by
  simp only [core, Core.mk.injEq] at h
  obtain ⟨h1, h2, h3, h4, h5, h6, h7⟩ := h
  unfold feedToken
  rw [h3]
  rcases findState g t.cur with _ | row
  · simp [core, haltWith, dispatchEvs, h1, h2, h3, h4, h5, h6, h7]
  · dsimp only
    split
    · rcases findTrans row tok.type with _ | tr
      · simp [core, haltWith, dispatchEvs, h1, h2, h3, h4, h5, h6, h7]
      · simp [core, dispatchEvs, h1, h2, h3, h4, h5, h6, h7]
    · simp [core, haltWith, dispatchEvs, h1, h2, h3, h4, h5, h6, h7]

lemma feedToken_handler (g : Grammar) (s : PState) (tok : Token) :
    (feedToken g s tok).handler = s.handler := by
  unfold feedToken
  rcases findState g s.cur with _ | row
  · simp [haltWith, dispatchEvs]
  · dsimp only
    split
    · rcases findTrans row tok.type with _ | tr
      · simp [haltWith, dispatchEvs]
      · simp [dispatchEvs]
    · simp [haltWith, dispatchEvs]

lemma feedToken_delivered_none (g : Grammar) (s : PState) (tok : Token)
    (h : s.handler = none) :
    (feedToken g s tok).delivered = s.delivered := by
  unfold feedToken
  rcases findState g s.cur with _ | row
  · simp [haltWith, dispatchEvs, h]
  · dsimp only
    split
    · rcases findTrans row tok.type with _ | tr
      · simp [haltWith, dispatchEvs, h]
      · simp [dispatchEvs, h]
    · simp [haltWith, dispatchEvs, h]

lemma drive_core (g : Grammar) :
    ∀ (n : Nat) {s t : PState}, s.buf.length ≤ n → core s = core t →
      core (drive g s) = core (drive g t) := by
  intro n
  induction n with
  | zero =>
    intro s t hle h
    have h' := h
    simp only [core, Core.mk.injEq] at h'
    obtain ⟨h1, h2, h3, h4, h5, h6, h7⟩ := h'
    have hnil : s.buf = [] := by
      cases hb : s.buf
      · rfl
      · rw [hb] at hle
        simp at hle
    rw [drive_nil hnil, drive_nil (h1 ▸ hnil)]
    exact h
  | succ n ih =>
    intro s t hle h
    have h' := h
    simp only [core, Core.mk.injEq] at h'
    obtain ⟨h1, h2, h3, h4, h5, h6, h7⟩ := h'
    rcases hh : s.halted with _ | _
    · have hht : t.halted = false := h7 ▸ hh
      by_cases hnil : s.buf = []
      · rw [drive_nil hnil, drive_nil (h1 ▸ hnil)]
        exact h
      · have hnilt : t.buf ≠ [] := h1 ▸ hnil
        rcases hx : lexer g.matchers s.buf with _ | _ | c
        · have hxt : lexer g.matchers t.buf = .noTok := h1 ▸ hx
          rw [drive_noTok hh hnil hx, drive_noTok hht hnilt hxt]
          simp [core, haltWith, dispatchEvs, h1, h2, h3, h4, h5, h6, h7]
        · have hxt : lexer g.matchers t.buf = .needMore := h1 ▸ hx
          rw [drive_needMore hx, drive_needMore hxt]
          exact h
        · have hxt : lexer g.matchers t.buf = .tok c := h1 ▸ hx
          have hple := lexer_tok_le hx
          have hppos := lexer_tok_pos hx
          by_cases hskip : c.tid ∈ g.skip_types
          · rw [drive_tok_skip hh hnil hx hskip,
              drive_tok_skip hht hnilt hxt hskip]
            refine ih ?_ ?_
            · simp
              omega
            · simp [core, h1, h2, h3, h4, h5, h6, h7]
          · rw [drive_tok_feed hh hnil hx hskip,
              drive_tok_feed hht hnilt hxt hskip]
            obtain ⟨fs, hFs⟩ : ∃ x, feedToken g
                { s with buf := s.buf.drop c.len, base := s.base + c.len }
                ⟨c.tid, s.base, c.len, s.buf.take c.len⟩ = x := ⟨_, rfl⟩
            obtain ⟨ft, hFt⟩ : ∃ x, feedToken g
                { t with buf := t.buf.drop c.len, base := t.base + c.len }
                ⟨c.tid, t.base, c.len, t.buf.take c.len⟩ = x := ⟨_, rfl⟩
            have hc : core fs = core ft := by
              rw [← hFs, ← hFt, ← h1, ← h2]
              exact feedToken_core g _ (by simp [core, h1, h2, h3, h4, h5, h6, h7])
            have hhs : fs.halted = ft.halted := by
              have := congrArg Core.halted hc
              simpa [core] using this
            rw [hFs, hFt]
            rcases hf : fs.halted with _ | _
            · rw [if_neg (by simp), if_neg (by rw [← hhs, hf]; simp)]
              refine ih ?_ hc
              have hlen := feedToken_buf_le g
                { s with buf := s.buf.drop c.len, base := s.base + c.len }
                ⟨c.tid, s.base, c.len, s.buf.take c.len⟩
              rw [hFs] at hlen
              simp only [List.length_drop] at hlen
              omega
            · rw [if_pos (show ft.halted = true by rw [← hhs]; exact hf)]
              rw [if_pos (show true = true from rfl)]
              exact hc
    · have hht : t.halted = true := h7 ▸ hh
      rw [drive_halted hh, drive_halted hht]
      exact h

lemma drive_handler (g : Grammar) :
    ∀ (n : Nat) (s : PState), s.buf.length ≤ n →
      (drive g s).handler = s.handler := by
  intro n
  induction n with
  | zero =>
    intro s hle
    have hnil : s.buf = [] := by
      cases hb : s.buf
      · rfl
      · rw [hb] at hle
        simp at hle
    rw [drive_nil hnil]
  | succ n ih =>
    intro s hle
    rcases hh : s.halted with _ | _
    · by_cases hnil : s.buf = []
      · rw [drive_nil hnil]
      · rcases hx : lexer g.matchers s.buf with _ | _ | c
        · rw [drive_noTok hh hnil hx]
          simp [haltWith, dispatchEvs]
        · rw [drive_needMore hx]
        · have hple := lexer_tok_le hx
          have hppos := lexer_tok_pos hx
          by_cases hskip : c.tid ∈ g.skip_types
          · rw [drive_tok_skip hh hnil hx hskip]
            exact ih _ (by simp; omega)
          · rw [drive_tok_feed hh hnil hx hskip]
            rcases hf : (feedToken g
                { s with buf := s.buf.drop c.len, base := s.base + c.len }
                ⟨c.tid, s.base, c.len, s.buf.take c.len⟩).halted with _ | _
            · rw [if_neg (by simp [hf])]
              have hlen := feedToken_buf_le g
                { s with buf := s.buf.drop c.len, base := s.base + c.len }
                ⟨c.tid, s.base, c.len, s.buf.take c.len⟩
              simp only [List.length_drop] at hlen
              rw [ih _ (by omega)]
              exact feedToken_handler g _ _
            · rw [if_pos (show true = true from rfl)]
              exact feedToken_handler g _ _
    · rw [drive_halted hh]

lemma drive_delivered_none (g : Grammar) :
    ∀ (n : Nat) (s : PState), s.buf.length ≤ n → s.handler = none →
      (drive g s).delivered = s.delivered := by
  intro n
  induction n with
  | zero =>
    intro s hle hnone
    have hnil : s.buf = [] := by
      cases hb : s.buf
      · rfl
      · rw [hb] at hle
        simp at hle
    rw [drive_nil hnil]
  | succ n ih =>
    intro s hle hnone
    rcases hh : s.halted with _ | _
    · by_cases hnil : s.buf = []
      · rw [drive_nil hnil]
      · rcases hx : lexer g.matchers s.buf with _ | _ | c
        · rw [drive_noTok hh hnil hx]
          simp [haltWith, dispatchEvs, hnone]
        · rw [drive_needMore hx]
        · have hple := lexer_tok_le hx
          have hppos := lexer_tok_pos hx
          by_cases hskip : c.tid ∈ g.skip_types
          · rw [drive_tok_skip hh hnil hx hskip]
            exact ih _ (by simp; omega) hnone
          · rw [drive_tok_feed hh hnil hx hskip]
            rcases hf : (feedToken g
                { s with buf := s.buf.drop c.len, base := s.base + c.len }
                ⟨c.tid, s.base, c.len, s.buf.take c.len⟩).halted with _ | _
            · rw [if_neg (by simp [hf])]
              have hlen := feedToken_buf_le g
                { s with buf := s.buf.drop c.len, base := s.base + c.len }
                ⟨c.tid, s.base, c.len, s.buf.take c.len⟩
              simp only [List.length_drop] at hlen
              rw [ih _ (by omega) (by rw [feedToken_handler]; exact hnone)]
              exact feedToken_delivered_none g _ _ hnone
            · rw [if_pos (show true = true from rfl)]
              exact feedToken_delivered_none g _ _ hnone
    · rw [drive_halted hh]

lemma zp_parse_chunk_halted {g : Grammar} {s : PState} (hh : s.halted = true)
    (data : List Nat) : zp_parse_chunk g s data = (s.errCode, s) := by
  rw [zp_parse_chunk, if_pos hh]

lemma zp_parse_chunk_live {g : Grammar} {s : PState} (hh : s.halted = false)
    (data : List Nat) :
    zp_parse_chunk g s data =
      ((if (drive g { s with buf := s.buf ++ data }).halted
        then (drive g { s with buf := s.buf ++ data }).errCode else ZP_OK),
       drive g { s with buf := s.buf ++ data }) := by
  rw [zp_parse_chunk, if_neg (by simp [hh])]

lemma zp_finish_halted {g : Grammar} {s : PState} (hh : s.halted = true) :
    zp_finish_parsing g s = (s.errCode, s) := by
  rw [zp_finish_parsing, if_pos hh]

lemma zp_finish_live_empty {g : Grammar} {s : PState} (hh : s.halted = false)
    (he : s.buf.isEmpty = true) :
    zp_finish_parsing g s = (ZP_OK, dispatchEvs [endDocEvent s.base] s) := by
  rw [zp_finish_parsing, if_neg (by simp [hh]), if_pos he]

lemma zp_finish_live_rem {g : Grammar} {s : PState} (hh : s.halted = false)
    (he : s.buf.isEmpty = false) :
    zp_finish_parsing g s =
      (ZP_ERROR_EOF, haltWith ZP_ERROR_EOF "truncated input" s.base s) := by
  rw [zp_finish_parsing, if_neg (by simp [hh]), if_neg (by rw [he]; simp)]

lemma zp_parse_string_halted {g : Grammar} {s : PState} (hh : s.halted = true)
    (data : List Nat) : zp_parse_string g s data = (s.errCode, s) := by
  rw [zp_parse_string, if_pos hh]

lemma zp_parse_string_live {g : Grammar} {s : PState} (hh : s.halted = false)
    (data : List Nat) {s1 : PState}
    (hs1 : drive g { s with buf := s.buf ++ data } = s1) :
    zp_parse_string g s data =
      (if s1.halted then (s1.errCode, s1)
       else if s1.buf.isEmpty then (ZP_OK, dispatchEvs [endDocEvent s1.base] s1)
       else (ZP_ERROR_EOF, haltWith ZP_ERROR_EOF "truncated input" s1.base s1)) := by
  rw [zp_parse_string, if_neg (by simp [hh])]
  simp only [hs1]

lemma stepOp_core (g : Grammar) (op : Op) {s t : PState} (h : core s = core t) :
    (stepOp g s op).1 = (stepOp g t op).1 ∧
      core (stepOp g s op).2 = core (stepOp g t op).2 := by
  have h' := h
  simp only [core, Core.mk.injEq] at h'
  obtain ⟨h1, h2, h3, h4, h5, h6, h7⟩ := h'
  cases op with
  | feed data =>
    rcases hh : s.halted with _ | _
    · have hht : t.halted = false := h7 ▸ hh
      have hcd : core (drive g { s with buf := s.buf ++ data })
          = core (drive g { t with buf := t.buf ++ data }) := by
        refine drive_core g (s.buf ++ data).length ?_ ?_
        · simp
        · simp [core, h1, h2, h3, h4, h5, h6, h7]
      have hcd' := hcd
      simp only [core, Core.mk.injEq] at hcd'
      obtain ⟨d1, d2, d3, d4, d5, d6, d7⟩ := hcd'
      rw [stepOp, zp_parse_chunk_live hh, stepOp, zp_parse_chunk_live hht]
      constructor
      · simp only
        rw [d5, d7]
      · simpa [core] using hcd
    · have hht : t.halted = true := h7 ▸ hh
      rw [stepOp, zp_parse_chunk_halted hh, stepOp, zp_parse_chunk_halted hht]
      exact ⟨h5, h⟩
  | finishOp =>
    rcases hh : s.halted with _ | _
    · have hht : t.halted = false := h7 ▸ hh
      rcases he : s.buf.isEmpty with _ | _
      · have het : t.buf.isEmpty = false := h1 ▸ he
        rw [stepOp, zp_finish_live_rem hh he, stepOp, zp_finish_live_rem hht het]
        exact ⟨rfl, by simp [core, haltWith, dispatchEvs, h1, h2, h3, h4, h5, h6, h7]⟩
      · have het : t.buf.isEmpty = true := h1 ▸ he
        rw [stepOp, zp_finish_live_empty hh he, stepOp, zp_finish_live_empty hht het]
        exact ⟨rfl, by simp [core, dispatchEvs, h1, h2, h3, h4, h5, h6, h7]⟩
    · have hht : t.halted = true := h7 ▸ hh
      rw [stepOp, zp_finish_halted hh, stepOp, zp_finish_halted hht]
      exact ⟨h5, h⟩
  | setHandler hdl =>
    constructor
    · simp [stepOp, zp_set_event_handler]
    · simp [stepOp, zp_set_event_handler, core, h1, h2, h3, h4, h5, h6, h7]

lemma runOps_core (g : Grammar) :
    ∀ (ops : List Op) {s t : PState}, core s = core t →
      core (runOps g ops s) = core (runOps g ops t) := by
  intro ops
  induction ops with
  | nil => intro s t h; exact h
  | cons o os ih =>
    intro s t h
    rw [runOps, runOps]
    exact ih (stepOp_core g o h).2

lemma opCodes_core (g : Grammar) :
    ∀ (ops : List Op) {s t : PState}, core s = core t →
      opCodes g ops s = opCodes g ops t := by
  intro ops
  induction ops with
  | nil => intro s t _; rfl
  | cons o os ih =>
    intro s t h
    rw [opCodes, opCodes]
    rw [(stepOp_core g o h).1]
    rw [ih (stepOp_core g o h).2]

lemma stepOp_handler (g : Grammar) (s : PState) (op : Op)
    (hop : ∀ hdl, op ≠ Op.setHandler hdl) :
    (stepOp g s op).2.handler = s.handler := by
  cases op with
  | feed data =>
    rcases hh : s.halted with _ | _
    · rw [stepOp, chunk_state_eq data hh]
      exact drive_handler g _ _ le_rfl
    · simp [stepOp, zp_parse_chunk, hh]
  | finishOp =>
    rcases hh : s.halted with _ | _
    · rcases he : s.buf.isEmpty with _ | _
      · simp [stepOp, zp_finish_parsing, hh, he, haltWith, dispatchEvs]
      · simp [stepOp, zp_finish_parsing, hh, he, dispatchEvs]
    · simp [stepOp, zp_finish_parsing, hh]
  | setHandler hdl => exact absurd rfl (hop hdl)

lemma stepOp_delivered_none (g : Grammar) (s : PState) (op : Op)
    (hnone : s.handler = none) (hop : ∀ hdl, op ≠ Op.setHandler hdl) :
    (stepOp g s op).2.delivered = s.delivered := by
  cases op with
  | feed data =>
    rcases hh : s.halted with _ | _
    · rw [stepOp, chunk_state_eq data hh]
      exact drive_delivered_none g _ _ le_rfl hnone
    · simp [stepOp, zp_parse_chunk, hh]
  | finishOp =>
    rcases hh : s.halted with _ | _
    · rcases he : s.buf.isEmpty with _ | _
      · simp [stepOp, zp_finish_parsing, hh, he, haltWith, dispatchEvs, hnone]
      · simp [stepOp, zp_finish_parsing, hh, he, dispatchEvs, hnone]
    · simp [stepOp, zp_finish_parsing, hh]
  | setHandler hdl => exact absurd rfl (hop hdl)

lemma runOps_delivered_none (g : Grammar) :
    ∀ (ops : List Op) (s : PState), (∀ hdl, Op.setHandler hdl ∉ ops) →
      s.handler = none →
      (runOps g ops s).delivered = s.delivered ∧
        (runOps g ops s).handler = none := by
  intro ops
  induction ops with
  | nil => intro s _ hnone; exact ⟨rfl, hnone⟩
  | cons o os ih =>
    intro s hno hnone
    have hop : ∀ hdl, o ≠ Op.setHandler hdl := by
      intro hdl he
      exact hno hdl (by rw [he]; exact List.mem_cons_self _ _)
    have hos : ∀ hdl, Op.setHandler hdl ∉ os := by
      intro hdl hmem
      exact hno hdl (List.mem_cons_of_mem _ hmem)
    rw [runOps]
    have hh := stepOp_handler g s o hop
    have hd := stepOp_delivered_none g s o hnone hop
    have := ih (stepOp g s o).2 hos (by rw [hh]; exact hnone)
    exact ⟨by rw [this.1, hd], this.2⟩

lemma parse_string_core (g : Grammar) (data : List Nat) {s t : PState}
    (h : core s = core t) :
    (zp_parse_string g s data).1 = (zp_parse_string g t data).1 ∧
      core (zp_parse_string g s data).2 = core (zp_parse_string g t data).2 := by
  have h' := h
  simp only [core, Core.mk.injEq] at h'
  obtain ⟨h1, h2, h3, h4, h5, h6, h7⟩ := h'
  rcases hh : s.halted with _ | _
  · have hht : t.halted = false := h7 ▸ hh
    obtain ⟨s1, hs1⟩ : ∃ x, drive g { s with buf := s.buf ++ data } = x :=
      ⟨_, rfl⟩
    obtain ⟨t1, ht1⟩ : ∃ x, drive g { t with buf := t.buf ++ data } = x :=
      ⟨_, rfl⟩
    have hcd : core s1 = core t1 := by
      rw [← hs1, ← ht1]
      refine drive_core g (s.buf ++ data).length ?_ ?_
      · simp
      · simp [core, h1, h2, h3, h4, h5, h6, h7]
    have hcd' := hcd
    simp only [core, Core.mk.injEq] at hcd'
    obtain ⟨d1, d2, d3, d4, d5, d6, d7⟩ := hcd'
    rw [zp_parse_string_live hh data hs1, zp_parse_string_live hht data ht1]
    rcases hf : s1.halted with _ | _
    · have hft : t1.halted = false := d7 ▸ hf
      rw [if_neg (show ¬(false = true) by simp)]
      rw [if_neg (show ¬(t1.halted = true) by simp [hft])]
      rcases he : s1.buf.isEmpty with _ | _
      · have het : t1.buf.isEmpty = false := d1 ▸ he
        rw [if_neg (show ¬(false = true) by simp)]
        rw [if_neg (show ¬(t1.buf.isEmpty = true) by rw [het]; simp)]
        exact ⟨rfl, by simp [core, haltWith, dispatchEvs, d1, d2, d3, d4, d5, d6, d7]⟩
      · have het : t1.buf.isEmpty = true := d1 ▸ he
        rw [if_pos (show (true = true) from rfl)]
        rw [if_pos het]
        exact ⟨rfl, by simp [core, dispatchEvs, d1, d2, d3, d4, d5, d6, d7]⟩
    · have hft : t1.halted = true := d7 ▸ hf
      rw [if_pos (show (true = true) from rfl)]
      rw [if_pos hft]
      exact ⟨d5, hcd⟩
  · have hht : t.halted = true := h7 ▸ hh
    rw [zp_parse_string_halted hh data, zp_parse_string_halted hht data]
    exact ⟨h5, h⟩

/-- Whether an operation sequence contains a consumer registration. -/
def hasSetHandler : List Op → Bool
  | [] => false
  | Op.setHandler _ :: _ => true
  | _ :: os => hasSetHandler os

lemma not_mem_of_hasSetHandler_false :
    ∀ {ops : List Op}, hasSetHandler ops = false →
      ∀ hdl, Op.setHandler hdl ∉ ops := by
  intro ops
  induction ops with
  | nil => intro _ hdl hmem; cases hmem
  | cons o os ih =>
    intro h hdl hmem
    cases o with
    | feed data =>
      rcases hmem with _ | hmem
      · exact ih (by simpa [hasSetHandler] using h) hdl ‹_›
    | finishOp =>
      rcases hmem with _ | hmem
      · exact ih (by simpa [hasSetHandler] using h) hdl ‹_›
    | setHandler hdl2 =>
      simp [hasSetHandler] at h

/-- C2: for every grammar and every input, running the parse through
two fresh parser instances bound to the same grammar — each with
whatever consumer happens to be registered — produces byte-identical
event sequences: the parse is a deterministic function of its grammar
and input arguments. -/
theorem parse_deterministic (g : Grammar) (input : List Nat)
    (h1 h2 : Option Nat) :
    (zp_parse_string g (zp_set_event_handler (initParser g) h1).2 input).2.events =
      (zp_parse_string g (zp_set_event_handler (initParser g) h2).2 input).2.events := by
  have hc : core (zp_set_event_handler (initParser g) h1).2
      = core (zp_set_event_handler (initParser g) h2).2 := rfl
  exact congrArg Core.events (parse_string_core g input hc).2

/-- C8: if no event consumer is registered, every dispatch is a no-op
(nothing is ever delivered) and parsing proceeds exactly as it would
with a consumer: the same state-machine core — buffer, offsets, current
state, produced events, error tracker, halted flag — and the same
result code for every call; the absence of a consumer is never itself
reported as an error. -/
theorem no_consumer_noop (g : Grammar) (st : PState) (ops : List Op)
    (hno : hasSetHandler ops = false) :
    (runOps g ops { st with handler := none }).delivered = st.delivered ∧
      core (runOps g ops { st with handler := none }) = core (runOps g ops st) ∧
      opCodes g ops { st with handler := none } = opCodes g ops st := by
  have hno' := not_mem_of_hasSetHandler_false hno
  refine ⟨?_, runOps_core g ops rfl, opCodes_core g ops rfl⟩
  exact (runOps_delivered_none g ops _ hno' rfl).1

/-! ## Skip exclusion -/

/-- The event does not originate from a skip-type token: its provenance
annotation, when present, is a token type outside `skip_types`. -/
def srcOk (g : Grammar) (e : Event) : Prop :=
  ∀ ty, e.srcType = some ty → ty ∉ g.skip_types

lemma dispatchEvs_pred {P : Event → Prop} {evs : List Event} {s : PState}
    (hE : ∀ e ∈ s.events, P e) (hD : ∀ e ∈ s.delivered, P e)
    (hN : ∀ e ∈ evs, P e) :
    (∀ e ∈ (dispatchEvs evs s).events, P e) ∧
      (∀ e ∈ (dispatchEvs evs s).delivered, P e) := by
  constructor
  · intro e he
    simp only [dispatchEvs, List.mem_append] at he
    rcases he with he | he
    · exact hE e he
    · exact hN e he
  · intro e he
    rcases hhd : s.handler with _ | v
    · simp only [dispatchEvs, hhd, List.append_nil] at he
      exact hD e he
    · simp only [dispatchEvs, hhd, List.mem_append] at he
      rcases he with he | he
      · exact hD e he
      · exact hN e he

lemma haltWith_pred {P : Event → Prop} {code : Nat} {msg : String}
    {off : Nat} {s : PState}
    (hE : ∀ e ∈ s.events, P e) (hD : ∀ e ∈ s.delivered, P e)
    (herr : P (errEvent off)) :
    (∀ e ∈ (haltWith code msg off s).events, P e) ∧
      (∀ e ∈ (haltWith code msg off s).delivered, P e) := by
  have := @dispatchEvs_pred P [errEvent off] s hE hD
    (by intro e he; simp at he; rw [he]; exact herr)
  exact this

lemma errEvent_srcOk (g : Grammar) (off : Nat) : srcOk g (errEvent off) := by
  intro ty hty
  simp [errEvent] at hty

lemma endDocEvent_srcOk (g : Grammar) (off : Nat) : srcOk g (endDocEvent off) := by
  intro ty hty
  simp [endDocEvent] at hty

lemma mkEvents_srcOk (g : Grammar) (kinds : List Nat) (tok : Token)
    (hty : tok.type ∉ g.skip_types) :
    ∀ e ∈ mkEvents kinds tok, srcOk g e := by
  intro e he
  simp only [mkEvents, List.mem_map] at he
  obtain ⟨k, _, hk⟩ := he
  intro ty hsrc
  rw [← hk] at hsrc
  simp at hsrc
  rw [← hsrc]
  exact hty

lemma feedToken_srcOk (g : Grammar) (s : PState) (tok : Token)
    (hty : tok.type ∉ g.skip_types)
    (hE : ∀ e ∈ s.events, srcOk g e) (hD : ∀ e ∈ s.delivered, srcOk g e) :
    (∀ e ∈ (feedToken g s tok).events, srcOk g e) ∧
      (∀ e ∈ (feedToken g s tok).delivered, srcOk g e) := by
  unfold feedToken
  rcases findState g s.cur with _ | row
  · exact haltWith_pred hE hD (errEvent_srcOk g _)
  · dsimp only
    split
    · rcases findTrans row tok.type with _ | tr
      · exact haltWith_pred hE hD (errEvent_srcOk g _)
      · exact dispatchEvs_pred hE hD (mkEvents_srcOk g tr.events tok hty)
    · exact haltWith_pred hE hD (errEvent_srcOk g _)

lemma drive_srcOk (g : Grammar) :
    ∀ (n : Nat) (s : PState), s.buf.length ≤ n →
      (∀ e ∈ s.events, srcOk g e) → (∀ e ∈ s.delivered, srcOk g e) →
      (∀ e ∈ (drive g s).events, srcOk g e) ∧
        (∀ e ∈ (drive g s).delivered, srcOk g e) := by
  intro n
  induction n with
  | zero =>
    intro s hle hE hD
    have hnil : s.buf = [] := by
      cases hb : s.buf
      · rfl
      · rw [hb] at hle
        simp at hle
    rw [drive_nil hnil]
    exact ⟨hE, hD⟩
  | succ n ih =>
    intro s hle hE hD
    rcases hh : s.halted with _ | _
    · by_cases hnil : s.buf = []
      · rw [drive_nil hnil]
        exact ⟨hE, hD⟩
      · rcases hx : lexer g.matchers s.buf with _ | _ | c
        · rw [drive_noTok hh hnil hx]
          exact haltWith_pred hE hD (errEvent_srcOk g _)
        · rw [drive_needMore hx]
          exact ⟨hE, hD⟩
        · have hple := lexer_tok_le hx
          have hppos := lexer_tok_pos hx
          by_cases hskip : c.tid ∈ g.skip_types
          · rw [drive_tok_skip hh hnil hx hskip]
            exact ih _ (by simp; omega) hE hD
          · rw [drive_tok_feed hh hnil hx hskip]
            have hft := feedToken_srcOk g
              { s with buf := s.buf.drop c.len, base := s.base + c.len }
              ⟨c.tid, s.base, c.len, s.buf.take c.len⟩ hskip hE hD
            rcases hf : (feedToken g
                { s with buf := s.buf.drop c.len, base := s.base + c.len }
                ⟨c.tid, s.base, c.len, s.buf.take c.len⟩).halted with _ | _
            · rw [if_neg (by simp)]
              have hlen := feedToken_buf_le g
                { s with buf := s.buf.drop c.len, base := s.base + c.len }
                ⟨c.tid, s.base, c.len, s.buf.take c.len⟩
              simp only [List.length_drop] at hlen
              exact ih _ (by omega) hft.1 hft.2
            · rw [if_pos (show true = true from rfl)]
              exact hft
    · rw [drive_halted hh]
      exact ⟨hE, hD⟩

lemma stepOp_srcOk (g : Grammar) (s : PState) (op : Op)
    (hE : ∀ e ∈ s.events, srcOk g e) (hD : ∀ e ∈ s.delivered, srcOk g e) :
    (∀ e ∈ (stepOp g s op).2.events, srcOk g e) ∧
      (∀ e ∈ (stepOp g s op).2.delivered, srcOk g e) := by
  cases op with
  | feed data =>
    rcases hh : s.halted with _ | _
    · rw [stepOp, chunk_state_eq data hh]
      exact drive_srcOk g _ _ le_rfl hE hD
    · rw [stepOp, zp_parse_chunk_halted hh]
      exact ⟨hE, hD⟩
  | finishOp =>
    rcases hh : s.halted with _ | _
    · rcases he : s.buf.isEmpty with _ | _
      · rw [stepOp, zp_finish_live_rem hh he]
        exact haltWith_pred hE hD (errEvent_srcOk g _)
      · rw [stepOp, zp_finish_live_empty hh he]
        exact dispatchEvs_pred hE hD
          (by intro e hme; simp at hme; rw [hme]; exact endDocEvent_srcOk g _)
    · rw [stepOp, zp_finish_halted hh]
      exact ⟨hE, hD⟩
  | setHandler hdl =>
    exact ⟨hE, hD⟩

lemma runOps_srcOk (g : Grammar) :
    ∀ (ops : List Op) (s : PState),
      (∀ e ∈ s.events, srcOk g e) → (∀ e ∈ s.delivered, srcOk g e) →
      (∀ e ∈ (runOps g ops s).events, srcOk g e) ∧
        (∀ e ∈ (runOps g ops s).delivered, srcOk g e) := by
  intro ops
  induction ops with
  | nil => intro s hE hD; exact ⟨hE, hD⟩
  | cons o os ih =>
    intro s hE hD
    rw [runOps]
    have := stepOp_srcOk g s o hE hD
    exact ih _ this.1 this.2

/-- C5: no produced or delivered event of any run from a fresh instance
(any consumer registered, any sequence of operations) carries a payload
originating from a token whose type is in the grammar's non-empty
`skip_types`: skip tokens advance the cursor but are never forwarded to
the state machine or the consumer. -/
theorem skip_exclusion (g : Grammar) (hne : g.skip_types ≠ [])
    (hdl : Option Nat) (ops : List Op) (e : Event)
    (he : e ∈ (runOps g ops (zp_set_event_handler (initParser g) hdl).2).events ∨
      e ∈ (runOps g ops (zp_set_event_handler (initParser g) hdl).2).delivered) :
    ∀ ty, e.srcType = some ty → ty ∉ g.skip_types := by
  have hr := runOps_srcOk g ops (zp_set_event_handler (initParser g) hdl).2
    (by intro x hx; cases hx) (by intro x hx; cases hx)
  rcases he with he | he
  · exact hr.1 e he
  · exact hr.2 e he

lemma stepOp_halted_noop (g : Grammar) (s : PState) (op : Op)
    (hh : s.halted = true) :
    (stepOp g s op).2.events = s.events ∧ (stepOp g s op).2.halted = true := by
  cases op with
  | feed data =>
    rw [stepOp, zp_parse_chunk_halted hh]
    exact ⟨rfl, hh⟩
  | finishOp =>
    rw [stepOp, zp_finish_halted hh]
    exact ⟨rfl, hh⟩
  | setHandler hdl =>
    exact ⟨rfl, hh⟩

lemma runOps_halted_noop (g : Grammar) :
    ∀ (ops : List Op) (s : PState), s.halted = true →
      (runOps g ops s).events = s.events := by
  intro ops
  induction ops with
  | nil => intro s _; rfl
  | cons o os ih =>
    intro s hh
    rw [runOps]
    have := stepOp_halted_noop g s o hh
    rw [ih _ this.2, this.1]

/-- C3: when a non-skip token whose type is outside the current state's
allowed set reaches the state machine, the instance emits exactly one
event — an error event — and halts; from then on no operation on the
instance ever emits a further event (in particular no structural
event), until the instance is destroyed. -/
theorem illegal_token_halt (g : Grammar) (s : PState) (tok : Token)
    (row : StateRow) (hrow : findState g s.cur = some row)
    (hnotallowed : tok.type ∉ row.allowed) :
    (feedToken g s tok).events = s.events ++ [errEvent tok.start_offset] ∧
      (errEvent tok.start_offset).kind = ZP_EVENT_ERROR ∧
      (feedToken g s tok).halted = true ∧
      ∀ ops : List Op, (runOps g ops (feedToken g s tok)).events
        = s.events ++ [errEvent tok.start_offset] := by
  have he : feedToken g s tok =
      haltWith ZP_ERROR_UNEXPECTED_TOKEN "unexpected token" tok.start_offset s := by
    unfold feedToken
    simp only [hrow]
    rw [if_neg hnotallowed]
  rw [he]
  refine ⟨by simp [haltWith, dispatchEvs], rfl, by simp [haltWith], ?_⟩
  intro ops
  rw [runOps_halted_noop g ops _ (by simp [haltWith])]
  simp [haltWith, dispatchEvs]

/-- C4: an input that ends in the middle of a token — the lexer is
suspended on `NeedMoreInput`, so unconsumed bytes remain buffered —
followed by `zp_finish_parsing` yields a truncation error: the error
tracker is set to `ZP_ERROR_EOF`, exactly one error event is emitted,
the instance halts, and no end-of-document event is produced — the
parse never completes silently. -/
theorem truncation_error (g : Grammar) (s : PState)
    (hlive : s.halted = false) (hrem : s.buf ≠ [])
    (hlex : lexer g.matchers s.buf = .needMore) :
    (zp_finish_parsing g s).1 = ZP_ERROR_EOF ∧
      zp_get_error_code (zp_finish_parsing g s).2 = ZP_ERROR_EOF ∧
      zp_get_error (zp_finish_parsing g s).2 = some "truncated input" ∧
      (zp_finish_parsing g s).2.events = s.events ++ [errEvent s.base] ∧
      (errEvent s.base).kind = ZP_EVENT_ERROR ∧
      (zp_finish_parsing g s).2.halted = true ∧
      ∀ e ∈ (zp_finish_parsing g s).2.events, e ∉ s.events →
        e.kind ≠ ZP_EVENT_END_DOCUMENT := by
  have he : s.buf.isEmpty = false := by
    cases hb2 : s.buf with
    | nil => exact absurd hb2 hrem
    | cons y ys => rfl
  rw [zp_finish_live_rem hlive he]
  refine ⟨rfl, by simp [zp_get_error_code, haltWith],
    by simp [zp_get_error, haltWith],
    by simp [haltWith, dispatchEvs], rfl, by simp [haltWith], ?_⟩
  intro e hmem hnotold
  have : e ∈ s.events ++ [errEvent s.base] := by
    simpa [haltWith, dispatchEvs] using hmem
  rcases List.mem_append.mp this with hm | hm
  · exact absurd hm hnotold
  · have : e = errEvent s.base := by simpa using hm
    rw [this]
    simp [errEvent, ZP_EVENT_ERROR, ZP_EVENT_END_DOCUMENT]

/-- C6: whenever the lexer selects a token, the selected candidate is a
definite match of one of the matchers, and no other definite match at
that position has higher priority, nor equal priority with an earlier
declaration index: among simultaneous definite matches, the highest
priority wins and ties go to the earliest declared matcher.  The
selection is a function of the matcher list and the buffer bytes. -/
theorem lexer_priority_selection (ms : List TokenMatcher) (buf : List Nat)
    (c : Cand) (h : lexer ms buf = .tok c) :
    hasDef buf c 0 ms = true ∧ defBeats buf c 0 ms = false := by
  rcases hb0 : bestFrom buf 0 ms with _ | d₀
  · simp only [lexer, hb0] at h
    split at h <;> simp at h
  · simp only [lexer, hb0] at h
    rcases hp0 : pendBeats buf d₀ 0 ms with _ | _
    · simp only [hp0, Bool.false_eq_true, if_false, LexRes.tok.injEq] at h
      subst h
      exact ⟨bestFrom_hasDef hb0, bestFrom_not_beaten hb0⟩
    · simp [hp0] at h

/-! ## Error tracker -/

lemma feedToken_tracker (g : Grammar) (s : PState) (tok : Token)
    (hh : s.halted = false) :
    ((feedToken g s tok).halted = false →
      (feedToken g s tok).errCode = s.errCode ∧
        (feedToken g s tok).errMsg = s.errMsg) ∧
    ((feedToken g s tok).halted = true →
      (feedToken g s tok).errCode ≠ ZP_OK) := by
  unfold feedToken
  rcases findState g s.cur with _ | row
  · constructor
    · intro hcontr
      simp [haltWith] at hcontr
    · intro _
      simp [haltWith, ZP_ERROR_PARSER_CONFIG, ZP_OK]
  · dsimp only
    split
    · rcases findTrans row tok.type with _ | tr
      · constructor
        · intro hcontr
          simp [haltWith] at hcontr
        · intro _
          simp [haltWith, ZP_ERROR_UNEXPECTED_TOKEN, ZP_OK]
      · constructor
        · intro _
          exact ⟨rfl, rfl⟩
        · intro hcontr
          simp only [dispatchEvs] at hcontr
          rw [hh] at hcontr
          cases hcontr
    · constructor
      · intro hcontr
        simp [haltWith] at hcontr
      · intro _
        simp [haltWith, ZP_ERROR_UNEXPECTED_TOKEN, ZP_OK]

lemma drive_tracker (g : Grammar) :
    ∀ (n : Nat) (s : PState), s.buf.length ≤ n → s.halted = false →
      ((drive g s).halted = false →
        (drive g s).errCode = s.errCode ∧ (drive g s).errMsg = s.errMsg) ∧
      ((drive g s).halted = true → (drive g s).errCode ≠ ZP_OK) := by
  intro n
  induction n with
  | zero =>
    intro s hle hlive
    have hnil : s.buf = [] := by
      cases hb : s.buf
      · rfl
      · rw [hb] at hle
        simp at hle
    rw [drive_nil hnil]
    exact ⟨fun _ => ⟨rfl, rfl⟩, fun hcontr => absurd hcontr (by simp [hlive])⟩
  | succ n ih =>
    intro s hle hlive
    by_cases hnil : s.buf = []
    · rw [drive_nil hnil]
      exact ⟨fun _ => ⟨rfl, rfl⟩, fun hcontr => absurd hcontr (by simp [hlive])⟩
    · rcases hx : lexer g.matchers s.buf with _ | _ | c
      · rw [drive_noTok hlive hnil hx]
        constructor
        · intro hcontr
          simp [haltWith] at hcontr
        · intro _
          simp [haltWith, ZP_ERROR_UNEXPECTED_TOKEN, ZP_OK]
      · rw [drive_needMore hx]
        exact ⟨fun _ => ⟨rfl, rfl⟩, fun hcontr => absurd hcontr (by simp [hlive])⟩
      · have hple := lexer_tok_le hx
        have hppos := lexer_tok_pos hx
        by_cases hskip : c.tid ∈ g.skip_types
        · rw [drive_tok_skip hlive hnil hx hskip]
          exact ih _ (by simp; omega) hlive
        · rw [drive_tok_feed hlive hnil hx hskip]
          obtain ⟨f, hF⟩ : ∃ y, feedToken g
              { s with buf := s.buf.drop c.len, base := s.base + c.len }
              ⟨c.tid, s.base, c.len, s.buf.take c.len⟩ = y := ⟨_, rfl⟩
          have hftr := feedToken_tracker g
            { s with buf := s.buf.drop c.len, base := s.base + c.len }
            ⟨c.tid, s.base, c.len, s.buf.take c.len⟩ hlive
          rw [hF] at hftr ⊢
          rcases hf : f.halted with _ | _
          · rw [if_neg (by simp)]
            have hflen := feedToken_buf_le g
              { s with buf := s.buf.drop c.len, base := s.base + c.len }
              ⟨c.tid, s.base, c.len, s.buf.take c.len⟩
            rw [hF] at hflen
            simp only [List.length_drop] at hflen
            have hi := ih f (by omega) hf
            have hpr := hftr.1 hf
            constructor
            · intro hdl
              have := hi.1 hdl
              exact ⟨this.1.trans hpr.1, this.2.trans hpr.2⟩
            · exact hi.2
          · rw [if_pos (show true = true from rfl)]
            exact ⟨fun hcontr => absurd hcontr (by simp [hf]), fun _ => hftr.2 hf⟩

lemma stepOp_ok_tracker (g : Grammar) (s : PState) (op : Op)
    (hok : (stepOp g s op).1 = ZP_OK) :
    (stepOp g s op).2.errCode = s.errCode ∧
      (stepOp g s op).2.errMsg = s.errMsg := by
  cases op with
  | feed data =>
    rcases hh : s.halted with _ | _
    · obtain ⟨s1, hs1⟩ : ∃ x, drive g { s with buf := s.buf ++ data } = x :=
        ⟨_, rfl⟩
      have htr := drive_tracker g (s.buf ++ data).length
        { s with buf := s.buf ++ data } (by simp) hh
      rw [hs1] at htr
      rw [stepOp, zp_parse_chunk_live hh, hs1] at hok ⊢
      rcases hf : s1.halted with _ | _
      · exact htr.1 hf
      · rw [if_pos hf] at hok
        exact absurd hok (htr.2 hf)
    · rw [stepOp, zp_parse_chunk_halted hh]
      exact ⟨rfl, rfl⟩
  | finishOp =>
    rcases hh : s.halted with _ | _
    · rcases he : s.buf.isEmpty with _ | _
      · rw [stepOp, zp_finish_live_rem hh he] at hok
        simp [ZP_ERROR_EOF, ZP_OK] at hok
      · rw [stepOp, zp_finish_live_empty hh he]
        exact ⟨rfl, rfl⟩
    · rw [stepOp, zp_finish_halted hh]
      exact ⟨rfl, rfl⟩
  | setHandler hdl =>
    exact ⟨rfl, rfl⟩

lemma stepOp_fail_tracker (g : Grammar) (s : PState) (op : Op)
    (hfail : (stepOp g s op).1 ≠ ZP_OK) :
    (stepOp g s op).2.errCode = (stepOp g s op).1 := by
  cases op with
  | feed data =>
    rcases hh : s.halted with _ | _
    · obtain ⟨s1, hs1⟩ : ∃ x, drive g { s with buf := s.buf ++ data } = x :=
        ⟨_, rfl⟩
      rw [stepOp, zp_parse_chunk_live hh, hs1] at hfail ⊢
      rcases hf : s1.halted with _ | _
      · rw [if_neg (by simp [hf])] at hfail ⊢
        exact absurd rfl hfail
      · rw [if_pos (show (true = true) from rfl)]
    · rw [stepOp, zp_parse_chunk_halted hh]
  | finishOp =>
    rcases hh : s.halted with _ | _
    · rcases he : s.buf.isEmpty with _ | _
      · rw [stepOp, zp_finish_live_rem hh he]
        simp [haltWith, ZP_ERROR_EOF]
      · rw [stepOp, zp_finish_live_empty hh he] at hfail
        exact absurd rfl hfail
    · rw [stepOp, zp_finish_halted hh]
  | setHandler hdl =>
    exact absurd rfl hfail

lemma allOk_tracker (g : Grammar) :
    ∀ (ops : List Op) (s : PState), allOk g ops s = true →
      (runOps g ops s).errCode = s.errCode ∧
        (runOps g ops s).errMsg = s.errMsg := by
  intro ops
  induction ops with
  | nil => intro s _; exact ⟨rfl, rfl⟩
  | cons o os ih =>
    intro s hok
    simp only [allOk, Bool.and_eq_true, beq_iff_eq] at hok
    rw [runOps]
    have h1 := stepOp_ok_tracker g s o hok.1
    have h2 := ih _ hok.2
    exact ⟨h2.1.trans h1.1, h2.2.trans h1.2⟩

/-- C7: the error tracker is a single cell, overwritten on failures and
cleared by nothing: an operation that succeeds (returns `ZP_OK`) leaves
the tracker untouched, an operation that fails leaves the tracker
holding exactly the code it returned, and after any sequence of
successful operations `zp_get_error_code` and `zp_get_error` still
report the code and message of the most recent failure. -/
theorem error_tracker_last_failure (g : Grammar) (s : PState) (op : Op)
    (ops : List Op) :
    ((stepOp g s op).1 = ZP_OK →
      zp_get_error_code (stepOp g s op).2 = zp_get_error_code s ∧
        zp_get_error (stepOp g s op).2 = zp_get_error s) ∧
    ((stepOp g s op).1 ≠ ZP_OK →
      zp_get_error_code (stepOp g s op).2 = (stepOp g s op).1) ∧
    (allOk g ops s = true →
      zp_get_error_code (runOps g ops s) = zp_get_error_code s ∧
        zp_get_error (runOps g ops s) = zp_get_error s) := by
  refine ⟨?_, ?_, ?_⟩
  · intro hok
    exact stepOp_ok_tracker g s op hok
  · intro hfail
    exact stepOp_fail_tracker g s op hfail
  · intro hallok
    exact allOk_tracker g ops s hallok

/-- C9: destroying a parser twice, or invoking any operation — feed,
finish, set handler, get error code — on an already-destroyed handle,
fails with the invalid-handle error code `ZP_ERROR_INVALID_HANDLE`
rather than succeeding (`zp_get_error`, which returns a message
pointer, yields the header's NULL). -/
theorem destroyed_handle_error (g : Grammar) (p : PState) (data : List Nat)
    (hdl : Option Nat) :
    (zp_destroy (some p)).2 = none ∧
      (zp_destroy (zp_destroy (some p)).2).1 = ZP_ERROR_INVALID_HANDLE ∧
      (zp_parse_chunk_h g none data).1 = ZP_ERROR_INVALID_HANDLE ∧
      (zp_finish_parsing_h g none).1 = ZP_ERROR_INVALID_HANDLE ∧
      (zp_set_event_handler_h none hdl).1 = ZP_ERROR_INVALID_HANDLE ∧
      zp_get_error_code_h none = ZP_ERROR_INVALID_HANDLE ∧
      zp_get_error_h none = none :=
  ⟨rfl, rfl, rfl, rfl, rfl, rfl, rfl⟩

/-! ## Concrete instances -/

/-- A small example grammar: literal tokens `a` (type 10) and `b`
(type 11), a skipped space character class (type 12), and one state
accepting `a` (emitting a value event) and `b` (emitting a
start-element event). -/
def exG : Grammar :=
  { matchers := [⟨10, .literal [97], 1⟩, ⟨11, .literal [98], 1⟩,
      ⟨12, .charClass [32], 1⟩],
    skip_types := [12],
    states := [⟨0, [10, 11],
      [⟨10, [ZP_EVENT_VALUE], 0⟩, ⟨11, [ZP_EVENT_START_ELEMENT], 0⟩]⟩],
    initial_state := 0 }

/-- An example grammar with a single two-byte literal token `ab`, used
to exhibit an input truncated in the middle of a token. -/
def exG2 : Grammar :=
  { matchers := [⟨10, .literal [97, 98], 1⟩],
    skip_types := [],
    states := [⟨0, [10], [⟨10, [ZP_EVENT_VALUE], 0⟩]⟩],
    initial_state := 0 }

/-- Witness for the illegal-token halt: feeding token type 99 (allowed
nowhere) to the fresh example instance emits the error event and halts. -/
theorem illegal_token_halt_witness :
    findState exG (initParser exG).cur
        = some ⟨0, [10, 11],
            [⟨10, [ZP_EVENT_VALUE], 0⟩, ⟨11, [ZP_EVENT_START_ELEMENT], 0⟩]⟩ ∧
      (99 : Nat) ∉ [10, 11] ∧
      (feedToken exG (initParser exG) ⟨99, 0, 1, [99]⟩).events
          = (initParser exG).events ++ [errEvent 0] ∧
      (feedToken exG (initParser exG) ⟨99, 0, 1, [99]⟩).halted = true :=
  ⟨by decide, by decide,
    (illegal_token_halt exG (initParser exG) ⟨99, 0, 1, [99]⟩
      ⟨0, [10, 11], [⟨10, [ZP_EVENT_VALUE], 0⟩, ⟨11, [ZP_EVENT_START_ELEMENT], 0⟩]⟩
      (by decide) (by decide)).1,
    (illegal_token_halt exG (initParser exG) ⟨99, 0, 1, [99]⟩
      ⟨0, [10, 11], [⟨10, [ZP_EVENT_VALUE], 0⟩, ⟨11, [ZP_EVENT_START_ELEMENT], 0⟩]⟩
      (by decide) (by decide)).2.2.1⟩

/-- Witness for truncation detection: an instance suspended with the
first byte of the literal `ab` in its buffer reports `ZP_ERROR_EOF`
when finished. -/
theorem truncation_error_witness :
    ((⟨[97], 1, 0, [], [], none, 0, none, false⟩ : PState)).halted = false ∧
      ((⟨[97], 1, 0, [], [], none, 0, none, false⟩ : PState)).buf ≠ [] ∧
      lexer exG2.matchers ((⟨[97], 1, 0, [], [], none, 0, none, false⟩ : PState)).buf
        = .needMore ∧
      (zp_finish_parsing exG2 ⟨[97], 1, 0, [], [], none, 0, none, false⟩).1
        = ZP_ERROR_EOF :=
  ⟨rfl, by decide, by decide,
    (truncation_error exG2 ⟨[97], 1, 0, [], [], none, 0, none, false⟩
      rfl (by decide) (by decide)).1⟩

/-- Witness for skip exclusion: the value event produced by feeding `a`
to the example grammar originates from token type 10, which is not a
skip type. -/
theorem skip_exclusion_witness :
    exG.skip_types ≠ [] ∧
      (⟨ZP_EVENT_VALUE, [97], 0, some 10⟩ : Event) ∈
        (runOps exG [Op.feed [97]]
          (zp_set_event_handler (initParser exG) none).2).events ∧
      (10 : Nat) ∉ exG.skip_types :=
  ⟨by decide, by decide,
    skip_exclusion exG (by decide) none [Op.feed [97]]
      ⟨ZP_EVENT_VALUE, [97], 0, some 10⟩ (Or.inl (by decide)) 10 rfl⟩

/-- Witness for priority selection: with a priority-1 literal `a` and a
priority-5 literal `ab` both definite on the buffer `ab`, the lexer
selects the priority-5 matcher, and it is an unbeaten definite match. -/
theorem lexer_priority_selection_witness :
    lexer [⟨10, .literal [97], 1⟩, ⟨11, .literal [97, 98], 5⟩] [97, 98]
        = .tok ⟨1, 5, 11, 2⟩ ∧
      hasDef [97, 98] ⟨1, 5, 11, 2⟩ 0
        [⟨10, .literal [97], 1⟩, ⟨11, .literal [97, 98], 5⟩] = true ∧
      defBeats [97, 98] ⟨1, 5, 11, 2⟩ 0
        [⟨10, .literal [97], 1⟩, ⟨11, .literal [97, 98], 5⟩] = false :=
  ⟨by decide,
    (lexer_priority_selection
      [⟨10, .literal [97], 1⟩, ⟨11, .literal [97, 98], 5⟩] [97, 98]
      ⟨1, 5, 11, 2⟩ (by decide)).1,
    (lexer_priority_selection
      [⟨10, .literal [97], 1⟩, ⟨11, .literal [97, 98], 5⟩] [97, 98]
      ⟨1, 5, 11, 2⟩ (by decide)).2⟩

/-- Witness for the error tracker: a successful feed of `a` followed by
a successful finish leaves the tracker of the fresh example instance
unchanged. -/
theorem error_tracker_last_failure_witness :
    (stepOp exG (initParser exG) (Op.feed [97])).1 = ZP_OK ∧
      allOk exG [Op.feed [97], Op.finishOp] (initParser exG) = true ∧
      zp_get_error_code (runOps exG [Op.feed [97], Op.finishOp] (initParser exG))
        = zp_get_error_code (initParser exG) :=
  ⟨by decide, by decide,
    ((error_tracker_last_failure exG (initParser exG) (Op.feed [97])
      [Op.feed [97], Op.finishOp]).2.2 (by decide)).1⟩

/-- Witness for consumer irrelevance: feeding `a` then finishing with
no registered consumer delivers nothing. -/
theorem no_consumer_noop_witness :
    hasSetHandler [Op.feed [97], Op.finishOp] = false ∧
      (runOps exG [Op.feed [97], Op.finishOp]
        { (zp_set_event_handler (initParser exG) (some 7)).2 with
            handler := none }).delivered
        = (zp_set_event_handler (initParser exG) (some 7)).2.delivered :=
  ⟨by decide,
    (no_consumer_noop exG (zp_set_event_handler (initParser exG) (some 7)).2
      [Op.feed [97], Op.finishOp] (by decide)).1⟩

end ZigParse
